import Mathlib

/-!
# Verification of the `table` layout/rendering engine (clinaresl/table, vendored)

This file gives a shallow embedding, in Lean 4, of the table-layout and
rendering engine vendored under `vendor/github.com/clinaresl/table`:
the column/row specification parser, the grid model (`AddRow`, `addRule`),
the multicell subsystem, the layout distribution engine
(`distributeColumns`, `distributeRows`, `distributeAllColumns`,
`distributeAllRows`), the cell content processor (`splitParagraph`,
`content.Process`, `justifyLine`), the border junction resolver
(`splitterUTF8`, `getSingleSplitter`) and the renderer (`Table.String`,
`addSplitters`).

Modelling conventions:
* Go strings are modelled as `List Char` (sequences of runes); Go byte
  positions are recovered where the source indexes by bytes via the UTF-8
  encoded length `utf8RuneLen` of each rune.
* Go `int` fields that are provably non-negative in every reachable state
  (widths, heights, counts, indices) are modelled as `Nat`.
* Methods with pointer receivers that mutate the table are modelled as
  state-passing functions `Table → ... → Table × ...`.
* The recursion `Table.String → multicell.Process → Table.String` (a
  multicell renders a privately owned nested table, which may itself
  contain multicells) is not structural; those functions take an explicit
  `fuel : Nat` argument and return their Go result unchanged whenever the
  fuel does not run out.  All theorems below either use concrete inputs
  (where a concrete fuel is checked to suffice) or concern tables without
  multicells (where no fuel is ever consumed).
* Go map lookup of a missing key returns the zero value; lookups in the
  `splitterUTF8` nested map are modelled with association lists and a
  `none`-rune (`0`) default, exactly as the Go runtime behaves.
-/

namespace Table

/-- Go `unicode/utf8.RuneLen`: number of bytes of the UTF-8 encoding of a
rune.  (All runes handled here are valid unicode scalar values.) -/
def utf8RuneLen (c : Char) : Nat :=
  if c.toNat < 0x80 then 1
  else if c.toNat < 0x800 then 2
  else if c.toNat < 0x10000 then 3
  else 4

/-- Go `unicode.IsSpace`: the White_Space property. -/
def goIsSpace (c : Char) : Bool :=
  c = ' ' || c = '\t' || c = '\n' || c.toNat = 0x0B || c.toNat = 0x0C ||
  c = '\r' || c.toNat = 0x85 || c.toNat = 0xA0 || c.toNat = 0x1680 ||
  (0x2000 ≤ c.toNat && c.toNat ≤ 0x200A) || c.toNat = 0x2028 ||
  c.toNat = 0x2029 || c.toNat = 0x202F || c.toNat = 0x205F || c.toNat = 0x3000

/-- Go `unicode.IsGraphic(r) && unicode.IsPrint(r)` as used by
`countPrintableRuneInString`.  Restriction of the Go unicode tables to the
character ranges that can occur in this package's inputs and outputs
(ASCII, Latin-1 and the box-drawing block): ASCII control characters,
DEL, the C1 block and the no-break space are not printable, every other
assigned character used by the engine is. -/
def goIsPrintableGraphic (c : Char) : Bool :=
  let n := c.toNat
  if n < 0x20 then false            -- C0 control characters
  else if n < 0x7F then true        -- printable ASCII (including ' ')
  else if n ≤ 0x9F then false       -- DEL and the C1 control block
  else if n = 0xA0 then false       -- NBSP: graphic but not print in Go
  else true

-- ---------------------------------------------------------------------------
-- Data model (defs.go)
-- ---------------------------------------------------------------------------

/-- `style`: an alignment code (a byte in Go; `0` when absent) plus an
optional numeric argument for the `p/C/L/R` paragraph styles. -/
structure Style where
  alignment : Char := Char.ofNat 0
  arg : Nat := 0
  deriving Repr, DecidableEq

/-- `column`: separator text, resolved width, horizontal and vertical
style. -/
structure Column where
  sep : List Char := []
  width : Nat := 0
  hformat : Style := {}
  vformat : Style := {}
  deriving Repr, DecidableEq

/-- `row`: just a physical height. -/
structure Row where
  height : Nat := 0
  deriving Repr, DecidableEq

-- constants from defs.go
def noneRune : Char := Char.ofNat 0
def horizontalBlank : Char := ' '
def horizontalSingle : Char := '─'
def horizontalDouble : Char := '═'
def horizontalThick : Char := '━'
def verticalSingle : Char := '│'
def verticalDouble : Char := '║'
def verticalThick : Char := '┃'

/-- `isVerticalSeparator` (helpers.go). -/
def isVerticalSeparator (r : Char) : Bool :=
  r = verticalSingle || r = verticalDouble || r = verticalThick

-- ---------------------------------------------------------------------------
-- Layout distribution engine: distributeColumns / distributeRows
-- ---------------------------------------------------------------------------

/-- The trailing loop of `distributeColumns`/`distributeRows`: add one
unit of width to each of the first `r` entries. -/
def bumpFirst (r : Nat) (ws : List Nat) : List Nat :=
  match r, ws with
  | 0, ws => ws
  | _, [] => []
  | r + 1, w :: ws => (w + 1) :: bumpFirst r ws

/-- `distributeColumns` (helpers.go), on the widths of the column slice:
add `n / len` to every width when `n ≥ len`, then one more to the first
`n % len` widths.  (When `n < len` the skipped quotient is `0`, so the
guard in the source changes nothing.)  Callers only pass a positive
shortfall `n`, hence `n : Nat`. -/
def distributeWidths (n : Nat) (ws : List Nat) : List Nat :=
  let quotient := n / ws.length
  let remainder := n % ws.length
  let ws1 := if ws.length ≤ n then ws.map (· + quotient) else ws
  bumpFirst remainder ws1

/-- Replace the widths of a column slice (auxiliary for
`distributeColumns`, which mutates widths in place in Go). -/
def withWidths : List Column → List Nat → List Column
  | [], _ => []
  | _ :: _, [] => []
  | c :: cs, w :: ws => { c with width := w } :: withWidths cs ws

/-- Replace the heights of a row slice. -/
def withHeights : List Row → List Nat → List Row
  | [], _ => []
  | _ :: _, [] => []
  | _ :: rs, h :: hs => { height := h } :: withHeights rs hs

/-- `distributeColumns` on full columns (only the `width` field moves). -/
def distributeColumns (n : Nat) (cols : List Column) : List Column :=
  withWidths cols (distributeWidths n (cols.map Column.width))

/-- `distributeRows` on full rows (only the `height` field moves). -/
def distributeRows (n : Nat) (rows : List Row) : List Row :=
  withHeights rows (distributeWidths n (rows.map Row.height))

theorem bumpFirst_length (r : Nat) (ws : List Nat) :
    (bumpFirst r ws).length = ws.length := by
  induction ws generalizing r with
  | nil => cases r <;> simp [bumpFirst]
  | cons w ws ih =>
    cases r with
    | zero => simp [bumpFirst]
    | succ r => simp [bumpFirst, ih]

theorem bumpFirst_sum (r : Nat) (ws : List Nat) (h : r ≤ ws.length) :
    (bumpFirst r ws).sum = ws.sum + r := by
  induction ws generalizing r with
  | nil =>
    have : r = 0 := by simpa using h
    subst this; simp [bumpFirst]
  | cons w ws ih =>
    cases r with
    | zero => simp [bumpFirst]
    | succ r =>
      simp only [bumpFirst, List.sum_cons]
      rw [ih r (by simpa using h)]
      omega

theorem bumpFirst_get (r : Nat) (ws : List Nat) (i : Nat) (hi : i < ws.length)
    (hi2 : i < (bumpFirst r ws).length) :
    (bumpFirst r ws)[i] = ws[i] + (if i < r then 1 else 0) := by
  induction ws generalizing r i with
  | nil => simp at hi
  | cons w ws ih =>
    cases r with
    | zero => simp [bumpFirst]
    | succ r =>
      cases i with
      | zero => simp [bumpFirst]
      | succ i =>
        simp only [bumpFirst, List.getElem_cons_succ]
        rw [ih r i (by simpa using hi) (by rw [bumpFirst_length]; simpa using hi)]
        simp [Nat.succ_lt_succ_iff]

theorem sum_map_add_const (ws : List Nat) (q : Nat) :
    (ws.map (· + q)).sum = ws.sum + q * ws.length := by
  induction ws with
  | nil => simp
  | cons w ws ih => simp [ih]; ring

theorem distributeWidths_length (n : Nat) (ws : List Nat) :
    (distributeWidths n ws).length = ws.length := by
  unfold distributeWidths
  split <;> simp [bumpFirst_length]

/-- Per-entry effect of the div/mod distribution: entry `i` gains the
quotient plus one extra unit exactly when `i < n % len`. -/
theorem distributeWidths_get (n : Nat) (ws : List Nat) (i : Nat)
    (hi : i < ws.length)
    (hi2 : i < (distributeWidths n ws).length) :
    (distributeWidths n ws)[i] =
      ws[i] + n / ws.length + (if i < n % ws.length then 1 else 0) := by
  unfold distributeWidths
  by_cases h : ws.length ≤ n
  · simp only [if_pos h]
    rw [bumpFirst_get _ _ i (by simpa using hi)
      (by rw [bumpFirst_length]; simpa using hi)]
    simp
  · simp only [if_neg h]
    rw [bumpFirst_get _ _ i hi (by rw [bumpFirst_length]; exact hi)]
    have hlt : n < ws.length := by omega
    have h0 : ws.length ≠ 0 := by omega
    rw [Nat.div_eq_of_lt hlt, Nat.mod_eq_of_lt hlt]
    simp

/-- The distribution accounts exactly for the shortfall. -/
theorem distributeWidths_sum (n : Nat) (ws : List Nat) (h : 0 < ws.length) :
    (distributeWidths n ws).sum = ws.sum + n := by
  unfold distributeWidths
  by_cases hn : ws.length ≤ n
  · simp only [if_pos hn]
    rw [bumpFirst_sum _ _ (by simpa using Nat.le_of_lt (Nat.mod_lt n h))]
    rw [sum_map_add_const ws (n / ws.length)]
    have := Nat.div_add_mod' n ws.length
    omega
  · simp only [if_neg hn]
    have hlt : n < ws.length := by omega
    rw [bumpFirst_sum _ _ (Nat.le_of_lt (by simpa using Nat.mod_lt n h))]
    rw [Nat.mod_eq_of_lt hlt]

theorem withWidths_length (cs : List Column) (ws : List Nat)
    (h : ws.length = cs.length) : (withWidths cs ws).length = cs.length := by
  induction cs generalizing ws with
  | nil => simp [withWidths]
  | cons c cs ih =>
    cases ws with
    | nil => simp at h
    | cons w ws => simp [withWidths, ih ws (by simpa using h)]

theorem withWidths_get (cs : List Column) (ws : List Nat)
    (h : ws.length = cs.length) (i : Nat) (hi : i < cs.length)
    (hw : i < ws.length) (hi2 : i < (withWidths cs ws).length) :
    (withWidths cs ws)[i] = { cs[i] with width := ws[i] } := by
  induction cs generalizing ws i with
  | nil => simp at hi
  | cons c cs ih =>
    cases ws with
    | nil => simp at h
    | cons w ws =>
      cases i with
      | zero => simp [withWidths]
      | succ i =>
        simp only [withWidths, List.getElem_cons_succ]
        exact ih ws (by simpa using h) i (by simpa using hi) (by simpa using hw)
          (by rw [withWidths_length _ ws (by simpa using h)]; simpa using hi)

theorem withHeights_length (rs : List Row) (hs : List Nat)
    (h : hs.length = rs.length) : (withHeights rs hs).length = rs.length := by
  induction rs generalizing hs with
  | nil => simp [withHeights]
  | cons r rs ih =>
    cases hs with
    | nil => simp at h
    | cons x hs => simp [withHeights, ih hs (by simpa using h)]

theorem withHeights_get (rs : List Row) (hs : List Nat)
    (h : hs.length = rs.length) (i : Nat) (hi : i < rs.length)
    (hw : i < hs.length) (hi2 : i < (withHeights rs hs).length) :
    (withHeights rs hs)[i] = { height := hs[i] } := by
  induction rs generalizing hs i with
  | nil => simp at hi
  | cons r rs ih =>
    cases hs with
    | nil => simp at h
    | cons x hs =>
      cases i with
      | zero => simp [withHeights]
      | succ i =>
        simp only [withHeights, List.getElem_cons_succ]
        exact ih hs (by simpa using h) i (by simpa using hi) (by simpa using hw)
          (by rw [withHeights_length _ hs (by simpa using h)]; simpa using hi)

theorem withWidths_map_width (cs : List Column) (ws : List Nat)
    (h : ws.length = cs.length) :
    (withWidths cs ws).map Column.width = ws := by
  induction cs generalizing ws with
  | nil => cases ws <;> simp_all [withWidths]
  | cons c cs ih =>
    cases ws with
    | nil => simp at h
    | cons w ws => simp [withWidths, ih ws (by simpa using h)]

theorem withHeights_map_height (rs : List Row) (hs : List Nat)
    (h : hs.length = rs.length) :
    (withHeights rs hs).map Row.height = hs := by
  induction rs generalizing hs with
  | nil => cases hs <;> simp_all [withHeights]
  | cons r rs ih =>
    cases hs with
    | nil => simp at h
    | cons x hs => simp [withHeights, ih hs (by simpa using h)]

theorem distributeColumns_length (n : Nat) (cols : List Column) :
    (distributeColumns n cols).length = cols.length := by
  unfold distributeColumns
  rw [withWidths_length]
  rw [distributeWidths_length]; simp

theorem distributeRows_length (n : Nat) (rows : List Row) :
    (distributeRows n rows).length = rows.length := by
  unfold distributeRows
  rw [withHeights_length]
  rw [distributeWidths_length]; simp

/-- C1, claim theorem.  For every shortfall `n ≥ 0` and every non-empty
slice of columns (rows), `distributeColumns` (`distributeRows`) adds
`n / count` to every column's width (row's height) plus one extra unit to
exactly the first `n % count` of them, and the total width (height) grows
by exactly `n`: the quotient/remainder distribution accounts exactly for
the shortfall. -/
theorem distribute_shortfall_exact (n : Nat) (cols : List Column)
    (rows : List Row) (hc : 0 < cols.length) (hr : 0 < rows.length) :
    (∀ i, (hi : i < cols.length) →
      (hi2 : i < (distributeColumns n cols).length) →
      ((distributeColumns n cols)[i]).width =
        cols[i].width + n / cols.length +
          (if i < n % cols.length then 1 else 0)) ∧
    ((distributeColumns n cols).map Column.width).sum =
      (cols.map Column.width).sum + n ∧
    (∀ i, (hi : i < rows.length) →
      (hi2 : i < (distributeRows n rows).length) →
      ((distributeRows n rows)[i]).height =
        rows[i].height + n / rows.length +
          (if i < n % rows.length then 1 else 0)) ∧
    ((distributeRows n rows).map Row.height).sum =
      (rows.map Row.height).sum + n := by
  have hlc : (distributeWidths n (cols.map Column.width)).length =
      (cols.map Column.width).length := distributeWidths_length _ _
  have hlr : (distributeWidths n (rows.map Row.height)).length =
      (rows.map Row.height).length := distributeWidths_length _ _
  refine ⟨?_, ?_, ?_, ?_⟩
  · intro i hi hi2
    unfold distributeColumns
    rw [withWidths_get _ _ (by simpa using hlc) i hi
      (by rw [distributeWidths_length]; simpa using hi)
      (by rw [withWidths_length _ _ (by simpa using hlc)]; exact hi)]
    have := distributeWidths_get n (cols.map Column.width) i (by simpa using hi)
      (by rw [distributeWidths_length]; simpa using hi)
    simp only [List.getElem_map] at this
    simp [this]
  · unfold distributeColumns
    rw [withWidths_map_width _ _ (by simpa using hlc)]
    rw [distributeWidths_sum n _ (by simpa using hc)]
  · intro i hi hi2
    unfold distributeRows
    rw [withHeights_get _ _ (by simpa using hlr) i hi
      (by rw [distributeWidths_length]; simpa using hi)
      (by rw [withHeights_length _ _ (by simpa using hlr)]; exact hi)]
    have := distributeWidths_get n (rows.map Row.height) i (by simpa using hi)
      (by rw [distributeWidths_length]; simpa using hi)
    simp only [List.getElem_map] at this
    simp [this]
  · unfold distributeRows
    rw [withHeights_map_height _ _ (by simpa using hlr)]
    rw [distributeWidths_sum n _ (by simpa using hr)]

/-- Witness for `distribute_shortfall_exact` at a concrete input:
distributing a shortfall of 5 over three columns of widths 1,2,3 and two
rows of heights 2,2. -/
theorem distribute_shortfall_exact_witness :
    (0 : Nat) < ([{ width := 1 }, { width := 2 }, { width := 3 }] : List Column).length ∧
    (0 : Nat) < ([{ height := 2 }, { height := 2 }] : List Row).length ∧
    ((distributeColumns 5 [{ width := 1 }, { width := 2 }, { width := 3 }]).map
        Column.width).sum =
      ((([{ width := 1 }, { width := 2 }, { width := 3 }] : List Column)).map
        Column.width).sum + 5 := by
  refine ⟨by decide, by decide, ?_⟩
  exact (distribute_shortfall_exact 5
    [{ width := 1 }, { width := 2 }, { width := 3 }]
    [{ height := 2 }, { height := 2 }] (by decide) (by decide)).2.1

-- ---------------------------------------------------------------------------
-- Cell content processor: splitParagraph (helpers.go)
-- ---------------------------------------------------------------------------

/-- Total UTF-8 byte length of a string (Go `len(str)`). -/
def byteLen (l : List Char) : Nat := (l.map utf8RuneLen).sum

/-- Go slicing `str[:b]` at a rune boundary `b` (in bytes). -/
def takeBytes : Nat → List Char → List Char
  | 0, _ => []
  | _, [] => []
  | b, c :: rest => c :: takeBytes (b - utf8RuneLen c) rest

/-- Go slicing `str[b:]` at a rune boundary `b` (in bytes). -/
def dropBytes : Nat → List Char → List Char
  | 0, l => l
  | _, [] => []
  | b, c :: rest => dropBytes (b - utf8RuneLen c) rest

/-- Go `utf8.DecodeRuneInString(s)` followed by `unicode.IsSpace`: `true`
iff the first rune of `s` is a space (`DecodeRuneInString` of an empty
string yields `RuneError`, which is not a space). -/
def headIsSpace (l : List Char) : Bool :=
  match l with
  | [] => false
  | d :: _ => goIsSpace d

/-- The inner loop of `splitParagraph`: scan the remaining runes of the
current segment, keeping the byte position `pos` of the current rune, the
number `nbrunes` of runes accepted so far, and the current break position
`e` (bytes) plus skip length `x` (bytes).  Returns the final `(end, nxt)`
pair of the Go loop. -/
def spInner (width strLen : Nat) : List Char → Nat → Nat → Nat → Nat → Nat × Nat
  | [], _, _, e, x => (e, x)
  | c :: rest, pos, nbrunes, e, x =>
    let nbrunes := nbrunes + 1
    -- a space remembers the latest breaking point
    let e1 := if goIsSpace c then pos else e
    let x1 := if goIsSpace c then utf8RuneLen c else x
    if goIsSpace c && decide (c = '\n') then
      -- a newline exits the loop immediately
      (e1, x1)
    else if width ≤ nbrunes then
      -- the maximum number of runes has been reached
      let e2 := if e1 = 0 then pos + utf8RuneLen c else e1
      let x2 := if e1 = 0 then 0 else x1
      -- if the rune immediately after is a space, cut right after this one
      if headIsSpace rest then
        (pos + utf8RuneLen c, utf8RuneLen c)
      else
        (e2, x2)
    else
      -- if the whole string is exhausted, take it until the end
      let e3 := if strLen ≤ pos + utf8RuneLen c then strLen else e1
      let x3 := if strLen ≤ pos + utf8RuneLen c then 0 else x1
      spInner width strLen rest (pos + utf8RuneLen c) nbrunes e3 x3

theorem utf8RuneLen_pos (c : Char) : 0 < utf8RuneLen c := by
  unfold utf8RuneLen
  split <;> try omega
  split <;> try omega
  split <;> omega

theorem byteLen_pos (c : Char) (l : List Char) : 0 < byteLen (c :: l) := by
  have := utf8RuneLen_pos c
  simp [byteLen]
  omega

/-- The inner loop always selects a strictly positive advance `end + nxt`
when the scanned segment is non-empty and `pos` is consistent with
`strLen`; this is what makes the Go outer loop terminate. -/
theorem spInner_advance_pos (width strLen : Nat) (l : List Char)
    (pos nbrunes e x : Nat) (hl : l ≠ [])
    (hpos : pos + byteLen l = strLen) :
    0 < (spInner width strLen l pos nbrunes e x).1 +
        (spInner width strLen l pos nbrunes e x).2 := by
  induction l generalizing pos nbrunes e x with
  | nil => exact absurd rfl hl
  | cons c rest ih =>
    have hc := utf8RuneLen_pos c
    simp only [spInner]
    split
    · -- newline exit
      rename_i hnl
      have hs : goIsSpace c = true := by
        cases h : goIsSpace c <;> simp [h] at hnl ⊢
      simp [hs]
      omega
    · split
      · -- width exit
        split
        · dsimp only; omega
        · dsimp only
          split <;> split <;> omega
      · -- continue
        cases rest with
        | nil =>
          -- last rune: the end-of-string branch fires
          simp [byteLen] at hpos
          have hle : strLen ≤ pos + utf8RuneLen c := by omega
          simp only [spInner, if_pos hle]
          omega
        | cons d rest' =>
          refine ih _ _ _ _ (by simp) ?_
          simp [byteLen] at hpos ⊢
          omega

theorem dropBytes_length_le (b : Nat) (l : List Char) :
    (dropBytes b l).length ≤ l.length := by
  induction l generalizing b with
  | nil => cases b <;> simp [dropBytes]
  | cons c rest ih =>
    cases b with
    | zero => simp [dropBytes]
    | succ b =>
      simp only [dropBytes]
      exact Nat.le_trans (ih _) (by simp)

theorem dropBytes_length_lt (b : Nat) (c : Char) (l : List Char)
    (hb : 0 < b) : (dropBytes b (c :: l)).length < (c :: l).length := by
  cases b with
  | zero => omega
  | succ b =>
    simp only [dropBytes]
    exact Nat.lt_of_le_of_lt (dropBytes_length_le _ _) (by simp)

/-- The outer loop of `splitParagraph`, with explicit fuel.  Each Go
iteration removes at least one rune from the string
(`spInner_advance_pos`), so a fuel of `str.length` always suffices; the
fuel-exhausted branch is unreachable from `splitParagraph`. -/
def splitParagraphAux (width : Nat) : Nat → List Char → List (List Char)
  | _, [] => []
  | 0, _ :: _ => []
  | fuel + 1, c :: cs =>
    let str := c :: cs
    let r := spInner width (byteLen str) str 0 0 0 0
    takeBytes r.1 str :: splitParagraphAux width fuel (dropBytes (r.1 + r.2) str)

/-- `splitParagraph` (helpers.go): split a string into lines of at most
`width` runes, breaking at the latest space at or before the limit, or at
the limit itself when no break point was recorded. -/
def splitParagraph (str : List Char) (width : Nat) : List (List Char) :=
  splitParagraphAux width str.length str

theorem splitParagraphAux_fuel (width : Nat) :
    ∀ f (l : List Char), l.length ≤ f →
      splitParagraphAux width f l = splitParagraphAux width l.length l := by
  intro f
  induction f using Nat.strong_induction_on with
  | _ f ih =>
    intro l hl
    cases l with
    | nil => cases f <;> rfl
    | cons c cs =>
      cases f with
      | zero => simp at hl
      | succ f =>
        simp only [splitParagraphAux, List.length_cons]
        have hdrop : (dropBytes
            ((spInner width (byteLen (c :: cs)) (c :: cs) 0 0 0 0).1 +
             (spInner width (byteLen (c :: cs)) (c :: cs) 0 0 0 0).2)
            (c :: cs)).length < (c :: cs).length :=
          dropBytes_length_lt _ _ _
            (spInner_advance_pos width (byteLen (c :: cs)) (c :: cs) 0 0 0 0
              (by simp) (by simp))
        have h1 := ih f (by omega)
          (dropBytes ((spInner width (byteLen (c :: cs)) (c :: cs) 0 0 0 0).1 +
            (spInner width (byteLen (c :: cs)) (c :: cs) 0 0 0 0).2) (c :: cs))
          (by simp at hdrop hl; omega)
        have h2 := ih cs.length (by simp at hl; omega)
          (dropBytes ((spInner width (byteLen (c :: cs)) (c :: cs) 0 0 0 0).1 +
            (spInner width (byteLen (c :: cs)) (c :: cs) 0 0 0 0).2) (c :: cs))
          (by simp at hdrop hl; omega)
        rw [h1, h2]

/-- One unfolding of the outer loop of `splitParagraph`. -/
theorem splitParagraph_cons (str : List Char) (width : Nat) (h : str ≠ []) :
    splitParagraph str width =
      takeBytes (spInner width (byteLen str) str 0 0 0 0).1 str ::
        splitParagraph
          (dropBytes ((spInner width (byteLen str) str 0 0 0 0).1 +
                      (spInner width (byteLen str) str 0 0 0 0).2) str) width := by
  cases str with
  | nil => exact absurd rfl h
  | cons c cs =>
    show splitParagraphAux width (cs.length + 1) (c :: cs) = _
    simp only [splitParagraphAux]
    have hdrop : (dropBytes
        ((spInner width (byteLen (c :: cs)) (c :: cs) 0 0 0 0).1 +
         (spInner width (byteLen (c :: cs)) (c :: cs) 0 0 0 0).2)
        (c :: cs)).length < (c :: cs).length :=
      dropBytes_length_lt _ _ _
        (spInner_advance_pos width (byteLen (c :: cs)) (c :: cs) 0 0 0 0
          (by simp) (by simp))
    rw [splitParagraphAux_fuel width cs.length _ (by simp at hdrop; omega)]
    rfl

-- Boundary lemmas: `takeBytes`/`dropBytes` at a rune boundary recover
-- `List.take`/`List.drop`.

theorem takeBytes_byteLen_take (l : List Char) (k : Nat) :
    takeBytes (byteLen (l.take k)) l = l.take k := by
  induction l generalizing k with
  | nil => cases k <;> simp [takeBytes, byteLen]
  | cons c rest ih =>
    cases k with
    | zero => simp [takeBytes, byteLen]
    | succ k =>
      have hc := utf8RuneLen_pos c
      have hpos : 0 < byteLen (c :: rest.take k) := byteLen_pos _ _
      simp only [List.take_succ_cons]
      rw [show byteLen (c :: rest.take k) = utf8RuneLen c + byteLen (rest.take k) by
        simp [byteLen]]
      cases h : utf8RuneLen c + byteLen (rest.take k) with
      | zero => omega
      | succ m =>
        simp only [takeBytes]
        have : m + 1 - utf8RuneLen c = byteLen (rest.take k) := by omega
        rw [this, ih]

theorem dropBytes_byteLen_take (l : List Char) (k : Nat) :
    dropBytes (byteLen (l.take k)) l = l.drop k := by
  induction l generalizing k with
  | nil => cases k <;> simp [dropBytes, byteLen]
  | cons c rest ih =>
    cases k with
    | zero => simp [dropBytes, byteLen]
    | succ k =>
      have hc := utf8RuneLen_pos c
      rw [show byteLen ((c :: rest).take (k + 1)) =
        utf8RuneLen c + byteLen (rest.take k) by simp [byteLen]]
      cases h : utf8RuneLen c + byteLen (rest.take k) with
      | zero => omega
      | succ m =>
        simp only [dropBytes]
        have : m + 1 - utf8RuneLen c = byteLen (rest.take k) := by omega
        rw [this, ih]
        simp

theorem dropBytes_byteLen (l : List Char) : dropBytes (byteLen l) l = [] := by
  have := dropBytes_byteLen_take l l.length
  simpa using this

theorem byteLen_take_succ (str : List Char) (nb : Nat) (h : nb < str.length) :
    byteLen (str.take (nb + 1)) = byteLen (str.take nb) + utf8RuneLen str[nb] := by
  have h1 : str.take (nb + 1) = str.take nb ++ [str[nb]] := by
    rw [List.take_succ, List.getElem?_eq_getElem h]
    rfl
  rw [h1]
  simp only [byteLen, List.map_append, List.sum_append, List.map_cons,
    List.map_nil, List.sum_cons, List.sum_nil]
  omega

theorem byteLen_take_add_drop (str : List Char) (k : Nat) :
    byteLen (str.take k) + byteLen (str.drop k) = byteLen str := by
  conv_rhs => rw [← List.take_append_drop k str]
  simp [byteLen]

theorem byteLen_take_pos (str : List Char) (nb : Nat) (h0 : nb ≠ 0)
    (hle : nb ≤ str.length) : 0 < byteLen (str.take nb) := by
  have hlen : (str.take nb).length = nb := by
    simp [Nat.min_eq_left hle]
  cases hh : str.take nb with
  | nil =>
    rw [hh] at hlen
    simp at hlen
    omega
  | cons a as => exact byteLen_pos _ _

theorem byteLen_nonempty_pos (l : List Char) (h : l ≠ []) : 0 < byteLen l := by
  cases l with
  | nil => exact absurd rfl h
  | cons a as => exact byteLen_pos _ _

/-- Characterization of the inner loop when it returns `nxt = 0`: either
the whole string was consumed (`end = len(str)`), or the `width`-limit was
hit with no recorded break point, in which case the line is exactly the
first `width` runes and none of the runes `1 .. width-1` is a space (only
the very first rune of the segment may be a space: a space at byte
position 0 sets `end = 0`, which the width-limit branch cannot
distinguish from "no break point found"). -/
theorem spInner_nxt_zero (width : Nat) (str : List Char) (hw : 0 < width) :
    ∀ nb (l : List Char) (e x : Nat),
      l = str.drop nb →
      l ≠ [] →
      nb < width →
      (x = 0 → e = 0) →
      (e = 0 → ∀ i, 1 ≤ i → i < nb → (hi : i < str.length) → ¬goIsSpace str[i]) →
      (spInner width (byteLen str) l (byteLen (str.take nb)) nb e x).2 = 0 →
      (spInner width (byteLen str) l (byteLen (str.take nb)) nb e x).1 = byteLen str ∨
        (width ≤ str.length ∧
         (spInner width (byteLen str) l (byteLen (str.take nb)) nb e x).1 =
           byteLen (str.take width) ∧
         ∀ i, 1 ≤ i → i < width → (hi : i < str.length) → ¬goIsSpace str[i]) := by
  intro nb l
  induction l generalizing nb with
  | nil =>
    intro e x hl hlne hnb hxe he hres
    exact absurd rfl hlne
  | cons c rest ih =>
    intro e x hl hlne hnb hxe he hres
    have hnblt : nb < str.length := by
      by_contra hc
      push_neg at hc
      rw [List.drop_eq_nil_of_le hc] at hl
      exact absurd hl (by simp)
    have hc0 : str[nb] = c := by
      have h0 : str[nb]? = some c := by
        have h1 := List.getElem?_drop str nb 0
        rw [← hl] at h1
        simpa using h1.symm
      simpa [List.getElem?_eq_getElem hnblt] using h0
    have hrest : rest = str.drop (nb + 1) := by
      have h2 : str.drop (nb + 1) = (str.drop nb).drop 1 := by
        rw [List.drop_drop]
      rw [h2, ← hl]
      simp
    have hnb0aux : ∀ hcnd : byteLen (str.take nb) = 0, nb = 0 := by
      intro hcnd
      by_contra hnb0
      have := byteLen_take_pos str nb hnb0 (Nat.le_of_lt hnblt)
      omega
    simp only [spInner] at hres ⊢
    by_cases hnl : (goIsSpace c && decide (c = '\n')) = true
    · -- newline exit: nxt = RuneLen '\n' > 0, contradiction
      rw [if_pos hnl] at hres ⊢
      simp only [Bool.and_eq_true] at hnl
      simp [hnl.1] at hres
      have := utf8RuneLen_pos c
      omega
    · rw [if_neg hnl] at hres ⊢
      by_cases hwd : width ≤ nb + 1
      · -- width-limit exit
        rw [if_pos hwd] at hres ⊢
        have hnb1 : nb + 1 = width := by omega
        by_cases hnsp : headIsSpace rest = true
        · -- the rune immediately after is a space: nxt = RuneLen c > 0
          rw [if_pos hnsp] at hres
          have := utf8RuneLen_pos c
          dsimp only at hres
          omega
        · rw [if_neg hnsp] at hres ⊢
          by_cases he1 : (if goIsSpace c then byteLen (str.take nb) else e) = 0
          · -- no recorded break point: the width-chop case
            simp only [if_pos he1] at hres ⊢
            right
            refine ⟨by omega, ?_, ?_⟩
            · rw [← hnb1, byteLen_take_succ str nb hnblt, hc0]
            · intro i h1 hiw hi
              have hinb : i < nb ∨ i = nb := by omega
              cases hinb with
              | inl hlt =>
                by_cases hsp : goIsSpace c = true
                · rw [if_pos hsp] at he1
                  have := hnb0aux he1
                  omega
                · rw [if_neg hsp] at he1
                  exact he he1 i h1 hlt hi
              | inr heq =>
                subst heq
                rw [hc0]
                by_cases hsp : goIsSpace c = true
                · -- a space here would give e1 ≠ 0 unless nb = 0, but i ≥ 1
                  rw [if_pos hsp] at he1
                  have := hnb0aux he1
                  omega
                · simpa using hsp
          · -- a break point was recorded: nxt = x1 > 0, contradiction
            simp only [if_neg he1] at hres
            by_cases hsp : goIsSpace c = true
            · simp only [if_pos hsp] at hres
              have := utf8RuneLen_pos c
              omega
            · simp only [if_neg hsp] at hres
              rw [if_neg hsp] at he1
              have hxne : x ≠ 0 := fun hx => he1 (hxe hx)
              omega
      · -- continue scanning
        rw [if_neg hwd] at hres ⊢
        by_cases hend : byteLen str ≤ byteLen (str.take nb) + utf8RuneLen c
        · -- this was the last rune: the rest is empty and the loop ends
          have hrnil : rest = [] := by
            by_contra hrne
            have h2 : byteLen (str.take (nb + 1)) =
                byteLen (str.take nb) + utf8RuneLen c := by
              rw [byteLen_take_succ str nb hnblt, hc0]
            have h4 : 0 < byteLen (str.drop (nb + 1)) :=
              byteLen_nonempty_pos _ (by rw [← hrest]; exact hrne)
            have h5 := byteLen_take_add_drop str (nb + 1)
            omega
          subst hrnil
          simp only [if_pos hend] at hres ⊢
          left
          simp [spInner]
        · simp only [if_neg hend] at hres ⊢
          -- apply the induction hypothesis at nb + 1
          have hstep : byteLen (str.take nb) + utf8RuneLen c =
              byteLen (str.take (nb + 1)) := by
            rw [byteLen_take_succ str nb hnblt, hc0]
          rw [hstep] at hres ⊢
          have hrne : rest ≠ [] := by
            intro hr
            rw [hr] at hrest
            have h5 := byteLen_take_add_drop str (nb + 1)
            rw [← hrest] at h5
            have h6 : byteLen ([] : List Char) = 0 := rfl
            rw [h6] at h5
            have h2 : byteLen (str.take (nb + 1)) =
                byteLen (str.take nb) + utf8RuneLen c := by
              rw [byteLen_take_succ str nb hnblt, hc0]
            omega
          refine ih (nb + 1) _ _ hrest hrne (by omega) ?_ ?_ hres
          · intro hx
            by_cases hsp : goIsSpace c = true
            · rw [if_pos hsp] at hx
              have := utf8RuneLen_pos c
              omega
            · rw [if_neg hsp] at hx ⊢
              exact hxe hx
          · intro he1 i h1 hilt hi
            by_cases hsp : goIsSpace c = true
            · rw [if_pos hsp] at he1
              have := hnb0aux he1
              omega
            · rw [if_neg hsp] at he1
              have hienb : i < nb ∨ i = nb := by omega
              cases hienb with
              | inl hlt => exact he he1 i h1 hlt hi
              | inr heq => subst heq; rw [hc0]; simpa using hsp


-- ---------------------------------------------------------------------------
-- C3 / C4: word-wrapping properties of splitParagraph
-- ---------------------------------------------------------------------------

/-- The maximal whitespace-free runs ("words") of a string. -/
def wordsOf (l : List Char) : List (List Char) :=
  (l.splitOnP goIsSpace).filter (fun w => decide (w ≠ []))

theorem takeWhile_length_ge {α} (P : α → Bool) (l : List α) (k : Nat)
    (hk : k ≤ l.length) (h : ∀ j, (hj : j < k) → P l[j] = true) :
    k ≤ (l.takeWhile P).length := by
  induction l generalizing k with
  | nil => simpa using hk
  | cons a as ih =>
    cases k with
    | zero => simp
    | succ k =>
      have ha : P a = true := by
        have := h 0 (by omega)
        simpa using this
      simp only [List.takeWhile_cons, ha, if_true, List.length_cons]
      have := ih k (by simpa using hk)
        (fun j hj => by
          have := h (j + 1) (by omega)
          simpa using this)
      omega

/-- C3, claim theorem (amended).  Whenever the wrapper breaks with no
separating whitespace between two consecutive output lines (the inner
loop returned `nxt = 0` with input left over), the characters around the
break belong to one word holding at least `width` runes: the first line
of the split carries at least `width - 1` trailing non-space runes.  (The
original claim said the straddling word's length must *exceed* the
width; a word of exactly `width` runes can be split when the segment
starts with a whitespace at byte position 0, which the code conflates
with "no break point found" — see `splitParagraph_short_word_broken`.) -/
theorem splitParagraph_break_needs_wide_word (str : List Char) (width : Nat)
    (hw : 0 < width) (hne : str ≠ [])
    (hx : (spInner width (byteLen str) str 0 0 0 0).2 = 0)
    (hrest : dropBytes ((spInner width (byteLen str) str 0 0 0 0).1 +
      (spInner width (byteLen str) str 0 0 0 0).2) str ≠ []) :
    splitParagraph str width =
      takeBytes (spInner width (byteLen str) str 0 0 0 0).1 str ::
        splitParagraph (dropBytes ((spInner width (byteLen str) str 0 0 0 0).1 +
          (spInner width (byteLen str) str 0 0 0 0).2) str) width ∧
    width ≤ ((takeBytes (spInner width (byteLen str) str 0 0 0 0).1
        str).reverse.takeWhile (fun c => !goIsSpace c)).length + 1 := by
  refine ⟨splitParagraph_cons str width hne, ?_⟩
  have hchar := spInner_nxt_zero width str hw 0 str 0 0 (by simp) hne hw
    (fun _ => rfl) (fun _ i _ h2 _ => absurd h2 (by omega)) hx
  have h00 : byteLen (str.take 0) = 0 := rfl
  cases hchar with
  | inl hall =>
    -- end = len(str): nothing is left over, contradicting hrest
    exfalso
    apply hrest
    rw [h00] at hall
    rw [hall, hx, Nat.add_zero]
    exact dropBytes_byteLen str
  | inr hgamma =>
    obtain ⟨hwlen, hend, hnospace⟩ := hgamma
    rw [h00] at hend
    rw [hend, takeBytes_byteLen_take]
    have hlen : (str.take width).length = width := by
      simp [Nat.min_eq_left hwlen]
    have hrev : ((str.take width).reverse).length = width := by
      simpa using hlen
    have hgoal : width - 1 ≤
        (((str.take width).reverse).takeWhile (fun c => !goIsSpace c)).length := by
      apply takeWhile_length_ge _ _ (width - 1) (by omega)
      intro j hj
      rw [List.getElem_reverse]
      have hidx : (str.take width).length - 1 - j = width - 1 - j := by
        rw [hlen]
      have h1le : 1 ≤ width - 1 - j := by omega
      have hwlt : width - 1 - j < width := by omega
      rw [List.getElem_take]
      have := hnospace (width - 1 - j) (by omega) (by omega) (by omega)
      simp only [hlen]
      simpa using this
    omega

/-- Witness for `splitParagraph_break_needs_wide_word` on the input
`"abcd"` with width 3, where the wrapper splits the word into
`["abc", "d"]`. -/
theorem splitParagraph_break_needs_wide_word_witness :
    ((0 : Nat) < 3 ∧ ("abcd".toList ≠ []) ∧
      (spInner 3 (byteLen "abcd".toList) "abcd".toList 0 0 0 0).2 = 0 ∧
      dropBytes ((spInner 3 (byteLen "abcd".toList) "abcd".toList 0 0 0 0).1 +
        (spInner 3 (byteLen "abcd".toList) "abcd".toList 0 0 0 0).2)
        "abcd".toList ≠ []) ∧
    3 ≤ ((takeBytes (spInner 3 (byteLen "abcd".toList) "abcd".toList 0 0 0 0).1
        "abcd".toList).reverse.takeWhile (fun c => !goIsSpace c)).length + 1 :=
  ⟨⟨by decide, by decide, by decide, by decide⟩,
    (splitParagraph_break_needs_wide_word "abcd".toList 3
      (by decide) (by decide) (by decide) (by decide)).2⟩

/-- C3, counterexample.  On the input `" abc"` with width 3, every word
of the input has exactly 3 runes — none *exceeds* the width — and yet the
wrapper splits the single word `"abc"` across two lines (`" ab"` and
`"c"`), with no whitespace dropped between them: the break falls strictly
inside the word.  (A space at byte position 0 sets `end = 0`, which the
width-limit branch treats as "no break point found".) -/
theorem splitParagraph_short_word_broken :
    splitParagraph " abc".toList 3 = [[' ', 'a', 'b'], ['c']] ∧
    wordsOf " abc".toList = [['a', 'b', 'c']] ∧
    (∀ w ∈ wordsOf " abc".toList, w.length ≤ 3) ∧
    [' ', 'a', 'b'] ++ ['c'] = " abc".toList ∧
    goIsSpace 'b' = false ∧ goIsSpace 'c' = false := by
  refine ⟨by decide, by decide, ?_, by decide, by decide, by decide⟩
  intro w hw
  have : wordsOf " abc".toList = [['a', 'b', 'c']] := by decide
  rw [this] at hw
  simp at hw
  subst hw
  decide

-- C4: over-long single words are chopped at the width, never left on one
-- oversized line.

/-- The inner loop on an all-non-space segment records no break point and
cuts after exactly `width` runes (or takes the whole rest of the string
when fewer are left). -/
theorem spInner_nonspace (width : Nat) (str : List Char) (hw : 0 < width)
    (hall : ∀ c ∈ str, goIsSpace c = false) :
    ∀ nb (l : List Char), l = str.drop nb → l ≠ [] → nb < width →
      spInner width (byteLen str) l (byteLen (str.take nb)) nb 0 0 =
        (byteLen (str.take width), 0) := by
  intro nb l
  induction l generalizing nb with
  | nil => intro hl hlne; exact absurd rfl hlne
  | cons c rest ih =>
    intro hl hlne hnb
    have hnblt : nb < str.length := by
      by_contra hc
      push_neg at hc
      rw [List.drop_eq_nil_of_le hc] at hl
      exact absurd hl (by simp)
    have hc0 : str[nb] = c := by
      have h0 : str[nb]? = some c := by
        have h1 := List.getElem?_drop str nb 0
        rw [← hl] at h1
        simpa using h1.symm
      simpa [List.getElem?_eq_getElem hnblt] using h0
    have hcmem : c ∈ str := by
      rw [← hc0]; exact List.getElem_mem hnblt
    have hcsp : goIsSpace c = false := hall c hcmem
    have hrest : rest = str.drop (nb + 1) := by
      have h2 : str.drop (nb + 1) = (str.drop nb).drop 1 := by
        rw [List.drop_drop]
      rw [h2, ← hl]
      simp
    simp only [spInner, hcsp, Bool.false_and, if_neg (by simp : ¬false = true)]
    by_cases hwd : width ≤ nb + 1
    · rw [if_pos hwd]
      have hnb1 : nb + 1 = width := by omega
      have hnsp : headIsSpace rest = false := by
        cases rest with
        | nil => rfl
        | cons d rest2 =>
          have : d ∈ str := by
            have : d ∈ str.drop (nb + 1) := by rw [← hrest]; simp
            exact List.drop_subset _ _ this
          simp [headIsSpace, hall d this]
      rw [if_neg (by simp [hnsp] : ¬headIsSpace rest = true)]
      rw [← hnb1, byteLen_take_succ str nb hnblt, hc0]
      simp
    · rw [if_neg hwd]
      by_cases hend : byteLen str ≤ byteLen (str.take nb) + utf8RuneLen c
      · -- last rune of the string: width > length, so take width = whole
        have hrnil : rest = [] := by
          by_contra hrne
          have h2 : byteLen (str.take (nb + 1)) =
              byteLen (str.take nb) + utf8RuneLen c := by
            rw [byteLen_take_succ str nb hnblt, hc0]
          have h4 : 0 < byteLen (str.drop (nb + 1)) :=
            byteLen_nonempty_pos _ (by rw [← hrest]; exact hrne)
          have h5 := byteLen_take_add_drop str (nb + 1)
          omega
        subst hrnil
        simp only [if_pos hend]
        have hlen : str.length = nb + 1 := by
          have h6 : str.drop (nb + 1) = [] := by rw [← hrest]
          have h7 := List.drop_eq_nil_iff.mp h6
          omega
        have h8 : str.take width = str := by
          apply List.take_of_length_le
          omega
        simp [spInner, h8]
      · simp only [if_neg hend]
        have hstep : byteLen (str.take nb) + utf8RuneLen c =
            byteLen (str.take (nb + 1)) := by
          rw [byteLen_take_succ str nb hnblt, hc0]
        rw [hstep]
        have hrne : rest ≠ [] := by
          intro hr
          rw [hr] at hrest
          have h5 := byteLen_take_add_drop str (nb + 1)
          rw [← hrest] at h5
          have h6 : byteLen ([] : List Char) = 0 := rfl
          rw [h6] at h5
          have h2 : byteLen (str.take (nb + 1)) =
              byteLen (str.take nb) + utf8RuneLen c := by
            rw [byteLen_take_succ str nb hnblt, hc0]
          omega
        exact ih (nb + 1) hrest hrne (by omega)

/-- Chunks of at most `w` runes, with fuel (the reference decomposition
for the amended C4: a long word is chopped at the width limit). -/
def chunksOfAux (w : Nat) : Nat → List Char → List (List Char)
  | _, [] => []
  | 0, _ :: _ => []
  | f + 1, c :: cs =>
    if w = 0 then [c :: cs]
    else (c :: cs).take w :: chunksOfAux w f ((c :: cs).drop w)

def chunksOf (w : Nat) (l : List Char) : List (List Char) :=
  chunksOfAux w l.length l

theorem chunksOfAux_fuel (w : Nat) (hw : 0 < w) :
    ∀ f (l : List Char), l.length ≤ f →
      chunksOfAux w f l = chunksOfAux w l.length l := by
  intro f
  induction f using Nat.strong_induction_on with
  | _ f ih =>
    intro l hl
    cases l with
    | nil => cases f <;> rfl
    | cons c cs =>
      cases f with
      | zero => simp at hl
      | succ f =>
        simp only [chunksOfAux, if_neg (by omega : ¬w = 0), List.length_cons]
        have hdrop : ((c :: cs).drop w).length < (c :: cs).length := by
          simp
          omega
        have h1 := ih f (by omega) ((c :: cs).drop w)
          (by simp at hdrop hl ⊢; omega)
        have h2 := ih cs.length (by simp at hl; omega) ((c :: cs).drop w)
          (by simp at hdrop hl ⊢; omega)
        rw [h1, h2]

theorem chunksOf_cons (w : Nat) (hw : 0 < w) (l : List Char) (hne : l ≠ []) :
    chunksOf w l = l.take w :: chunksOf w (l.drop w) := by
  cases l with
  | nil => exact absurd rfl hne
  | cons c cs =>
    show chunksOfAux w (cs.length + 1) (c :: cs) = _
    simp only [chunksOfAux, if_neg (by omega : ¬w = 0)]
    rw [chunksOfAux_fuel w hw cs.length ((c :: cs).drop w) (by simp; omega)]
    rfl

/-- C4, claim theorem (amended).  A single word (no whitespace at all)
whose rune length exceeds the target width is *not* placed on its own
oversized line: `splitParagraph` chops it into chunks of exactly `width`
runes (the last chunk possibly shorter), so every output line has at most
`width` runes and the output has more than one line. -/
theorem splitParagraph_long_word_chopped (str : List Char) (width : Nat)
    (hw : 0 < width) (hne : str ≠ [])
    (hall : ∀ c ∈ str, goIsSpace c = false) (hlong : width < str.length) :
    splitParagraph str width = chunksOf width str ∧
    (∀ line ∈ splitParagraph str width, line.length ≤ width) ∧
    splitParagraph str width ≠ [str] := by
  have hmain : ∀ n (l : List Char), l.length ≤ n →
      (∀ c ∈ l, goIsSpace c = false) →
      splitParagraph l width = chunksOf width l := by
    intro n
    induction n with
    | zero =>
      intro l hl _
      have : l = [] := by
        cases l with
        | nil => rfl
        | cons a as => simp at hl
      subst this
      rfl
    | succ n ihn =>
      intro l hl hall'
      cases hln : l with
      | nil => rfl
      | cons a as =>
        rw [← hln]
        have hlne : l ≠ [] := by rw [hln]; simp
        rw [splitParagraph_cons l width hlne]
        have hsp := spInner_nonspace width l hw hall' 0 l (by simp) hlne hw
        rw [show byteLen (l.take 0) = 0 from rfl] at hsp
        rw [hsp]
        simp only [Nat.add_zero]
        rw [takeBytes_byteLen_take, dropBytes_byteLen_take]
        rw [chunksOf_cons width hw l hlne]
        congr 1
        apply ihn
        · have h1 : (l.drop width).length = l.length - width := by simp
          omega
        · intro c hc
          exact hall' c (List.drop_subset _ _ hc)
  have heq := hmain str.length str (by omega) hall
  refine ⟨heq, ?_, ?_⟩
  · -- every chunk holds at most `width` runes
    have hchunk : ∀ n (l : List Char), l.length ≤ n →
        ∀ line ∈ chunksOf width l, line.length ≤ width := by
      intro n
      induction n with
      | zero =>
        intro l hl line hline
        have : l = [] := by
          cases l with
          | nil => rfl
          | cons a as => simp at hl
        subst this
        simp [chunksOf, chunksOfAux] at hline
      | succ n ihn =>
        intro l hl line hline
        cases hln : l with
        | nil => subst hln; simp [chunksOf, chunksOfAux] at hline
        | cons a as =>
          have hlne : l ≠ [] := by rw [hln]; simp
          rw [chunksOf_cons width hw l hlne] at hline
          simp only [List.mem_cons] at hline
          cases hline with
          | inl h => subst h; simp
          | inr h =>
            have hlen : (l.drop width).length ≤ n := by
              have h1 : (l.drop width).length = l.length - width := by simp
              omega
            exact ihn (l.drop width) hlen line h
    rw [heq]
    exact hchunk str.length str (by omega)
  · -- more than one chunk: the first has exactly `width < length str` runes
    rw [heq, chunksOf_cons width hw str hne]
    intro hcontra
    have h1 : str.take width = str := by
      injection hcontra with h1 _
    have h2 : (str.take width).length = width := by
      simp [Nat.min_eq_left (Nat.le_of_lt hlong)]
    rw [h1] at h2
    omega

/-- Witness for `splitParagraph_long_word_chopped` on the word `"abcd"`
with width 3. -/
theorem splitParagraph_long_word_chopped_witness :
    ((0 : Nat) < 3 ∧ "abcd".toList ≠ [] ∧
      (∀ c ∈ "abcd".toList, goIsSpace c = false) ∧ 3 < "abcd".toList.length) ∧
    splitParagraph "abcd".toList 3 = chunksOf 3 "abcd".toList :=
  ⟨⟨by decide, by decide, by decide, by decide⟩,
    (splitParagraph_long_word_chopped "abcd".toList 3 (by decide) (by decide)
      (by decide) (by decide)).1⟩

/-- C4, counterexample.  The word `"abcd"` (4 runes, no whitespace)
wrapped at width 3 is *not* placed unbroken on its own oversized line:
the output is `["abc", "d"]`, two lines, not `["abcd"]`. -/
theorem splitParagraph_no_oversized_line :
    (∀ c ∈ "abcd".toList, goIsSpace c = false) ∧
    3 < "abcd".toList.length ∧
    splitParagraph "abcd".toList 3 = [['a', 'b', 'c'], ['d']] ∧
    splitParagraph "abcd".toList 3 ≠ ["abcd".toList] := by
  refine ⟨?_, by decide, by decide, by decide⟩
  intro c hc
  fin_cases hc <;> decide


-- ---------------------------------------------------------------------------
-- Table grid model (defs.go types)
-- ---------------------------------------------------------------------------

/-- `multicellType` (defs.go): multicolumn_t, multirow_t, multicell_t. -/
inductive MType where
  | multicolumn
  | multirow
  | multicell
  deriving Repr, DecidableEq

mutual
/-- `Table` (defs.go): columns, rows, and the cell grid. -/
inductive Table where
  | mk (columns : List Column) (rows : List Row) (cells : List (List GCell)) :
      Table

/-- A `formatter` stored in the grid: a content string, a horizontal
rule string, a multicell, or a `nil` interface entry (a grid slot left
unwritten by `AddRow` because a multicell from an earlier row covers it;
it is never processed). -/
inductive GCell where
  | content (s : List Char) : GCell
  | rule (s : List Char) : GCell
  | mcell (m : GMcell) : GCell
  | nilFmt : GCell

/-- `multicell` (defs.go).  The `args` field of the Go struct is never
read after construction and is omitted. -/
inductive GMcell where
  | mk (mtype : MType) (jinit nbcolumns iinit nbrows : Nat)
      (cspec rspec clastsep rlastsep : List Char)
      (table : Table) (output : List Char) : GMcell
end

def Table.columns : Table → List Column
  | .mk cs _ _ => cs

def Table.rows : Table → List Row
  | .mk _ rs _ => rs

def Table.cells : Table → List (List GCell)
  | .mk _ _ cl => cl

def Table.withColumns (t : Table) (cs : List Column) : Table :=
  .mk cs t.rows t.cells

def Table.withRows (t : Table) (rs : List Row) : Table :=
  .mk t.columns rs t.cells

def Table.withCells (t : Table) (cl : List (List GCell)) : Table :=
  .mk t.columns t.rows cl

def GMcell.mtype : GMcell → MType | .mk v _ _ _ _ _ _ _ _ _ _ => v
def GMcell.jinit : GMcell → Nat | .mk _ v _ _ _ _ _ _ _ _ _ => v
def GMcell.nbcolumns : GMcell → Nat | .mk _ _ v _ _ _ _ _ _ _ _ => v
def GMcell.iinit : GMcell → Nat | .mk _ _ _ v _ _ _ _ _ _ _ => v
def GMcell.nbrows : GMcell → Nat | .mk _ _ _ _ v _ _ _ _ _ _ => v
def GMcell.cspec : GMcell → List Char | .mk _ _ _ _ _ v _ _ _ _ _ => v
def GMcell.rspec : GMcell → List Char | .mk _ _ _ _ _ _ v _ _ _ _ => v
def GMcell.clastsep : GMcell → List Char | .mk _ _ _ _ _ _ _ v _ _ _ => v
def GMcell.rlastsep : GMcell → List Char | .mk _ _ _ _ _ _ _ _ v _ _ => v
def GMcell.table : GMcell → Table | .mk _ _ _ _ _ _ _ _ _ v _ => v
def GMcell.output : GMcell → List Char | .mk _ _ _ _ _ _ _ _ _ _ v => v

def GMcell.withTable (m : GMcell) (t : Table) : GMcell :=
  match m with
  | .mk a b c d e f g h i _ k => .mk a b c d e f g h i t k

/-- Read a grid cell; Go panics on an out-of-range index, which cannot
happen for tables built through the API (`nilFmt` works as the default). -/
def Table.cellAt (t : Table) (i j : Nat) : GCell :=
  (t.cells.getD i []).getD j .nilFmt

def Table.colAt (t : Table) (j : Nat) : Column :=
  t.columns.getD j {}

def Table.rowAt (t : Table) (i : Nat) : Row :=
  t.rows.getD i {}

-- ---------------------------------------------------------------------------
-- ANSI colour-escape recognition (the regex `\033([\[;]\d+)+m`)
-- ---------------------------------------------------------------------------

def isDigitChar (c : Char) : Bool := decide ('0' ≤ c) && decide (c ≤ '9')

/-- One `[\[;]\d+` group: returns chars consumed and the rest. -/
def ansiGroup (l : List Char) : Option (Nat × List Char) :=
  match l with
  | c :: r =>
    if c = '[' || c = ';' then
      let digits := r.takeWhile isDigitChar
      if digits.length = 0 then none
      else some (1 + digits.length, r.drop digits.length)
    else none
  | [] => none

/-- Greedy `([\[;]\d+)+`, with fuel bounded by the list length. -/
def ansiGroups : Nat → List Char → Option (Nat × List Char)
  | 0, _ => none
  | fuel + 1, l =>
    match ansiGroup l with
    | none => none
    | some (k, r) =>
      match ansiGroups fuel r with
      | some (k2, r2) => some (k + k2, r2)
      | none => some (k, r)

/-- Length in runes of an ANSI colour escape starting at the head of
`l`, if one matches there (`\033([\[;]\d+)+m`). -/
def ansiMatchLen (l : List Char) : Option Nat :=
  match l with
  | c :: r =>
    if c.toNat = 27 then
      match ansiGroups r.length r with
      | some (k, r2) =>
        match r2 with
        | 'm' :: _ => some (1 + k + 1)
        | _ => none
      | none => none
    else none
  | [] => none

theorem ansiMatchLen_pos (l : List Char) (k : Nat)
    (h : ansiMatchLen l = some k) : 1 ≤ k := by
  unfold ansiMatchLen at h
  split at h
  · split at h
    · split at h
      · split at h
        · simp at h
          omega
        · exact absurd h (by simp)
      · exact absurd h (by simp)
    · exact absurd h (by simp)
  · exact absurd h (by simp)

/-- `countPrintableRuneInString` (helpers.go): printable and graphic
runes, skipping ANSI colour escapes.  The fuel is bounded by the list
length; every step consumes at least one rune, so it never runs out. -/
def countPrintableAux : Nat → List Char → Nat
  | _, [] => 0
  | 0, _ :: _ => 0
  | fuel + 1, c :: r =>
    match ansiMatchLen (c :: r) with
    | some k =>
      -- skip the whole escape sequence
      countPrintableAux fuel ((c :: r).drop k)
    | none =>
      (if goIsPrintableGraphic c then 1 else 0) + countPrintableAux fuel r

def countPrintableRuneInString (l : List Char) : Nat :=
  countPrintableAux l.length l

/-- `getRune` (helpers.go): the i-th rune after skipping ANSI colour
escapes; `none` models the error return (Go assigns the zero rune).
Fuel bounded by the list length, which every step consumes. -/
def getRuneAux : Nat → List Char → Nat → Option Char
  | _, [], _ => none
  | 0, _ :: _, _ => none
  | fuel + 1, c :: r, i =>
    match ansiMatchLen (c :: r) with
    | some k => getRuneAux fuel ((c :: r).drop k) i
    | none =>
      if i = 0 then some c else getRuneAux fuel r (i - 1)

def getRuneGo (l : List Char) (i : Nat) : Option Char :=
  getRuneAux l.length l i

/-- `insertRune` (helpers.go): replace the rune starting at (physical)
byte position `i` with `r`; out-of-range positions leave the string
unchanged.  (`i` counts bytes, including ANSI escapes.) -/
def insertRune (s : List Char) (i : Int) (r : Char) : List Char :=
  if i < 0 || (byteLen s : Int) ≤ i then s
  else go s 0
where
  go : List Char → Nat → List Char
    | [], _ => []
    | c :: rest, idx =>
      (if (idx : Int) = i then r else c) :: go rest (idx + utf8RuneLen c)

/-- `logicalToPhysical` (helpers.go): physical byte position of the
`li`-th logical rune (ANSI escapes skipped); with `force` the string is
extended with blanks to make the position exist.  Returns the position
(`-1` when absent and not forced) and the possibly-extended string.
In the forced branch Go computes `diff := 1 + li - countPrintable(s)` as
an `int`; it is positive there because the loop has already exhausted the
string without reaching logical position `li`, so `Nat` subtraction is
faithful. -/
def logicalToPhysical (s : List Char) (li : Nat) (force : Bool) :
    Int × List Char :=
  match go s.length s 0 0 with
  | some pi => ((pi : Int), s)
  | none =>
    if force then
      -- the string holds fewer than li+1 logical runes: extend it
      let diff := 1 + li - countPrintableRuneInString s
      ((byteLen s + diff - 1 : Int), s ++ List.replicate diff horizontalBlank)
    else (-1, s)
where
  go : Nat → List Char → Nat → Nat → Option Nat
    | _, [], _, _ => none
    | 0, _ :: _, _, _ => none
    | fuel + 1, c :: r, pi, idx =>
      match ansiMatchLen (c :: r) with
      | some k =>
        go fuel ((c :: r).drop k) (pi + (((c :: r).take k).map utf8RuneLen).sum) idx
      | none =>
        if idx = li then some pi
        else go fuel r (pi + utf8RuneLen c) (idx + 1)

/-- `justifyLine` (helpers.go): blank prefix/suffix implementing the
horizontal alignment.  Go computes `width - countPrintable(line)` as an
`int`; it is non-negative whenever the column is at least as wide as its
content (always true after layout), and `strings.Repeat` would panic
otherwise, so `Nat` subtraction is faithful on all reachable inputs. -/
def justifyLine (line : List Char) (alignment : Char) (width : Nat) :
    List Char × List Char :=
  let count := countPrintableRuneInString line
  let pre :=
    if alignment.toLower = 'c' then
      List.replicate ((width - count) / 2) horizontalBlank
    else if alignment.toLower = 'r' then
      List.replicate (width - count) horizontalBlank
    else []
  let suf :=
    if alignment.toLower = 'c' then
      List.replicate ((width - count) / 2) horizontalBlank ++
        List.replicate ((width - count) % 2) ' '
    else if alignment.toLower = 'l' || alignment = 'p' then
      List.replicate (width - count) horizontalBlank
    else []
  (pre, suf)


-- ---------------------------------------------------------------------------
-- Border junction resolver: splitterUTF8 / getSingleSplitter
-- ---------------------------------------------------------------------------

/-- Alias for the nested-map levels of `splitterUTF8`. -/
abbrev SplitMap1 := List (Char × Char)
abbrev SplitMap2 := List (Char × SplitMap1)
abbrev SplitMap3 := List (Char × SplitMap2)

/-- `splitterUTF8` (splitter.go): the fixed west→east→north→south
association of junction glyphs.  Entries commented out in the source are
absent keys here; a Go lookup of an absent key yields the zero value
(the `none` rune). -/
def splitterUTF8 : List (Char × SplitMap3) := [
  (noneRune, [
    (noneRune, [
      (noneRune, [(noneRune, noneRune)]),
      (verticalSingle, [(verticalSingle, verticalSingle),
        (verticalDouble, noneRune), (verticalThick, noneRune)]),
      (verticalDouble, [(verticalSingle, noneRune),
        (verticalDouble, verticalDouble), (verticalThick, noneRune)]),
      (verticalThick, [(verticalSingle, noneRune),
        (verticalDouble, noneRune), (verticalThick, verticalThick)])]),
    (horizontalSingle, [
      (noneRune, [(noneRune, noneRune), (verticalSingle, '┌'),
        (verticalDouble, '╓'), (verticalThick, '┎')]),
      (verticalSingle, [(noneRune, '└'), (verticalSingle, '├'),
        (verticalDouble, '┟'), (verticalThick, '┟')]),
      (verticalDouble, [(noneRune, '╙'), (verticalSingle, '┞'),
        (verticalDouble, '╟'), (verticalThick, '┠')]),
      (verticalThick, [(noneRune, '┖'), (verticalSingle, '┞'),
        (verticalDouble, '┠'), (verticalThick, '┠')])]),
    (horizontalDouble, [
      (noneRune, [(noneRune, noneRune), (verticalSingle, '╒'),
        (verticalDouble, '╔'), (verticalThick, '┏')]),
      (verticalSingle, [(noneRune, '╘'), (verticalSingle, '╞'),
        (verticalDouble, '┢'), (verticalThick, '┢')]),
      (verticalDouble, [(noneRune, '╚'), (verticalSingle, '┡'),
        (verticalDouble, '╠'), (verticalThick, '┣')]),
      (verticalThick, [(noneRune, '┗'), (verticalSingle, '┡'),
        (verticalDouble, '┣'), (verticalThick, '┣')])]),
    (horizontalThick, [
      (noneRune, [(noneRune, noneRune), (verticalSingle, '┍'),
        (verticalDouble, '┏'), (verticalThick, '┏')]),
      (verticalSingle, [(noneRune, '┕'), (verticalSingle, '┝'),
        (verticalDouble, '┢'), (verticalThick, '┢')]),
      (verticalDouble, [(noneRune, '┗'), (verticalSingle, '┡'),
        (verticalDouble, '┣'), (verticalThick, '┣')]),
      (verticalThick, [(noneRune, '┗'), (verticalSingle, '┡'),
        (verticalDouble, '┣'), (verticalThick, '┣')])])]),
  (horizontalSingle, [
    (noneRune, [
      (noneRune, [(noneRune, noneRune), (verticalSingle, '┐'),
        (verticalDouble, '╖'), (verticalThick, '┒')]),
      (verticalSingle, [(noneRune, '┘'), (verticalSingle, '┤'),
        (verticalDouble, '┧'), (verticalThick, '┧')]),
      (verticalDouble, [(noneRune, '╜'), (verticalSingle, '┦'),
        (verticalDouble, '╢'), (verticalThick, '┨')]),
      (verticalThick, [(noneRune, '┚'), (verticalSingle, '┦'),
        (verticalDouble, '┨'), (verticalThick, '┨')])]),
    (horizontalSingle, [
      (noneRune, [(noneRune, noneRune), (verticalSingle, '┬'),
        (verticalDouble, '╥'), (verticalThick, '┰')]),
      (verticalSingle, [(noneRune, '┴'), (verticalSingle, '┼'),
        (verticalDouble, '╁'), (verticalThick, '╁')]),
      (verticalDouble, [(noneRune, '╨'), (verticalSingle, '╀'),
        (verticalDouble, '╫'), (verticalThick, '╂')]),
      (verticalThick, [(noneRune, '┸'), (verticalSingle, '╀'),
        (verticalDouble, '╂'), (verticalThick, '╂')])]),
    (horizontalDouble, [
      (noneRune, [(noneRune, noneRune), (verticalSingle, '┼'),
        (verticalDouble, '╁'), (verticalThick, '╁')]),
      (verticalSingle, [(noneRune, '┶'), (verticalSingle, '┾'),
        (verticalDouble, '╆'), (verticalThick, '╆')]),
      (verticalDouble, [(noneRune, '┺'), (verticalSingle, '╄'),
        (verticalDouble, '╊'), (verticalThick, '╊')]),
      (verticalThick, [(noneRune, '┺'), (verticalSingle, '╄'),
        (verticalDouble, '╊'), (verticalThick, '╊')])]),
    (horizontalThick, [
      (noneRune, [(noneRune, noneRune), (verticalSingle, '┼'),
        (verticalDouble, '╁'), (verticalThick, '╁')]),
      (verticalSingle, [(noneRune, '┶'), (verticalSingle, '┾'),
        (verticalDouble, '╆'), (verticalThick, '╆')]),
      (verticalDouble, [(noneRune, '┶'), (verticalSingle, '╄'),
        (verticalDouble, '╊'), (verticalThick, '╊')]),
      (verticalThick, [(noneRune, '┺'), (verticalSingle, '╄'),
        (verticalDouble, '╊'), (verticalThick, '╊')])])]),
  (horizontalDouble, [
    (noneRune, [
      (noneRune, [(noneRune, noneRune), (verticalSingle, '╕'),
        (verticalDouble, '╗'), (verticalThick, '┓')]),
      (verticalSingle, [(noneRune, '╛'), (verticalSingle, '╡'),
        (verticalDouble, '┪'), (verticalThick, '┪')]),
      (verticalDouble, [(noneRune, '╝'), (verticalSingle, '┩'),
        (verticalDouble, '╣'), (verticalThick, '┫')]),
      (verticalThick, [(noneRune, '┛'), (verticalSingle, '┩'),
        (verticalDouble, '┪'), (verticalThick, '┫')])]),
    (horizontalSingle, [
      (noneRune, [(noneRune, noneRune), (verticalSingle, '┭'),
        (verticalDouble, '┱'), (verticalThick, '┱')]),
      (verticalSingle, [(noneRune, '┵'), (verticalSingle, '┽'),
        (verticalDouble, '╅'), (verticalThick, '╅')]),
      (verticalDouble, [(noneRune, '┹'), (verticalSingle, '╃'),
        (verticalDouble, '╉'), (verticalThick, '╉')]),
      (verticalThick, [(noneRune, '┹'), (verticalSingle, '╃'),
        (verticalDouble, '╉'), (verticalThick, '╉')])]),
    (horizontalDouble, [
      (noneRune, [(noneRune, noneRune), (verticalSingle, '╤'),
        (verticalDouble, '╦'), (verticalThick, '┳')]),
      (verticalSingle, [(noneRune, '╧'), (verticalSingle, '╪'),
        (verticalDouble, '╈'), (verticalThick, '╈')]),
      (verticalDouble, [(noneRune, '╩'), (verticalSingle, '╇'),
        (verticalDouble, '╬'), (verticalThick, '╋')]),
      (verticalThick, [(noneRune, '┻'), (verticalSingle, '╇'),
        (verticalDouble, '╋'), (verticalThick, '╋')])]),
    (horizontalThick, [
      (noneRune, [(noneRune, noneRune), (verticalSingle, '┯'),
        (verticalDouble, '┳'), (verticalThick, '┳')]),
      (verticalSingle, [(noneRune, '┷'), (verticalSingle, '┿'),
        (verticalDouble, '╈'), (verticalThick, '╈')]),
      (verticalDouble, [(noneRune, '┻'), (verticalSingle, '╇'),
        (verticalDouble, '╋'), (verticalThick, '╋')]),
      (verticalThick, [(noneRune, '┻'), (verticalSingle, '╇'),
        (verticalDouble, '╋'), (verticalThick, '╋')])])]),
  (horizontalThick, [
    (noneRune, [
      (noneRune, [(noneRune, noneRune), (verticalSingle, '┑'),
        (verticalDouble, '┓'), (verticalThick, '┓')]),
      (verticalSingle, [(noneRune, '┙'), (verticalSingle, '┥'),
        (verticalDouble, '┪'), (verticalThick, '┪')]),
      (verticalDouble, [(noneRune, '┛'), (verticalSingle, '┩'),
        (verticalDouble, '┫'), (verticalThick, '┫')]),
      (verticalThick, [(noneRune, '┛'), (verticalSingle, '┩'),
        (verticalDouble, '┫'), (verticalThick, '┫')])]),
    (horizontalSingle, [
      (noneRune, [(noneRune, noneRune), (verticalSingle, '┭'),
        (verticalDouble, '┱'), (verticalThick, '┱')]),
      (verticalSingle, [(noneRune, '┵'), (verticalSingle, '┽'),
        (verticalDouble, '╅'), (verticalThick, '╅')]),
      (verticalDouble, [(noneRune, '┹'), (verticalSingle, '╃'),
        (verticalDouble, '╉'), (verticalThick, '╉')]),
      (verticalThick, [(noneRune, '┹'), (verticalSingle, '╃'),
        (verticalDouble, '╉'), (verticalThick, '╉')])]),
    (horizontalDouble, [
      (noneRune, [(noneRune, noneRune), (verticalSingle, '┯'),
        (verticalDouble, '┳'), (verticalThick, '┳')]),
      (verticalSingle, [(noneRune, '┷'), (verticalSingle, '┿'),
        (verticalDouble, '╈'), (verticalThick, '╈')]),
      (verticalDouble, [(noneRune, '┻'), (verticalSingle, '╇'),
        (verticalDouble, '╋'), (verticalThick, '╋')]),
      (verticalThick, [(noneRune, '┻'), (verticalSingle, '╇'),
        (verticalDouble, '╋'), (verticalThick, '╋')])]),
    (horizontalThick, [
      (noneRune, [(noneRune, horizontalThick), (verticalSingle, '┯'),
        (verticalDouble, '┳'), (verticalThick, '┳')]),
      (verticalSingle, [(noneRune, '┷'), (verticalSingle, '┿'),
        (verticalDouble, '╈'), (verticalThick, '╈')]),
      (verticalDouble, [(noneRune, '┻'), (verticalSingle, '╇'),
        (verticalDouble, '╋'), (verticalThick, '╋')]),
      (verticalThick, [(noneRune, '┻'), (verticalSingle, '╇'),
        (verticalDouble, '╋'), (verticalThick, '╋')])])])]

/-- `getSingleSplitter` (helpers.go): normalize each of the west, east,
north, south runes to `none` when it is not a key at its level, then
look up the splitter.  Go indexing of a missing map key returns the zero
value, modelled by `getD`. -/
def getSingleSplitter (west east north south : Char) : Char :=
  let west := if (List.lookup west splitterUTF8).isSome then west else noneRune
  let m1 : SplitMap3 := (List.lookup west splitterUTF8).getD []
  let east := if (List.lookup east m1).isSome then east else noneRune
  let m2 : SplitMap2 := (List.lookup east m1).getD []
  let north := if (List.lookup north m2).isSome then north else noneRune
  let m3 : SplitMap1 := (List.lookup north m2).getD []
  let south := if (List.lookup south m3).isSome then south else noneRune
  (List.lookup south m3).getD noneRune

/-- C7, claim theorem (amended).  `getSingleSplitter` is a pure total
function of its four runes: a rune that is not a recognized key at its
level is treated as `none` at that level (parts 1–4); the final lookup
cannot fail — where the nested table has no entry even for the
normalized combination (e.g. west/east/south `none` with north `│`, a
combination the source leaves commented out) the Go zero value `none`
is returned (part 5).  It returns `none` for four `none` neighbours and
for the single and double straight horizontal runs (part 6), but NOT
for every junction-free combination: the thick horizontal straight run
yields the thick rune itself, and a vertical straight run yields its
own vertical rune (part 7). -/
theorem getSingleSplitter_total_norm :
    (∀ w e n s, List.lookup w splitterUTF8 = none →
      getSingleSplitter w e n s = getSingleSplitter noneRune e n s) ∧
    (∀ w e n s m1, List.lookup w splitterUTF8 = some m1 →
      List.lookup e m1 = none →
      getSingleSplitter w e n s = getSingleSplitter w noneRune n s) ∧
    (∀ w e n s m1 m2, List.lookup w splitterUTF8 = some m1 →
      List.lookup e m1 = some m2 → List.lookup n m2 = none →
      getSingleSplitter w e n s = getSingleSplitter w e noneRune s) ∧
    (∀ w e n s m1 m2 m3, List.lookup w splitterUTF8 = some m1 →
      List.lookup e m1 = some m2 → List.lookup n m2 = some m3 →
      List.lookup s m3 = none →
      getSingleSplitter w e n s = getSingleSplitter w e n noneRune) ∧
    getSingleSplitter noneRune noneRune verticalSingle noneRune = noneRune ∧
    getSingleSplitter noneRune noneRune noneRune noneRune = noneRune ∧
    getSingleSplitter horizontalSingle horizontalSingle noneRune noneRune =
      noneRune ∧
    getSingleSplitter horizontalDouble horizontalDouble noneRune noneRune =
      noneRune ∧
    getSingleSplitter horizontalThick horizontalThick noneRune noneRune =
      horizontalThick ∧
    getSingleSplitter noneRune noneRune verticalSingle verticalSingle =
      verticalSingle ∧
    getSingleSplitter noneRune noneRune verticalDouble verticalDouble =
      verticalDouble ∧
    getSingleSplitter noneRune noneRune verticalThick verticalThick =
      verticalThick := by
  refine ⟨?_, ?_, ?_, ?_, by decide, by decide, by decide, by decide,
    by decide, by decide, by decide, by decide⟩
  · intro w e n s hw
    simp only [getSingleSplitter, hw]
    rfl
  · intro w e n s m1 hw he
    unfold getSingleSplitter
    simp only [hw, Option.isSome_some, if_true, Option.getD_some, he,
      Option.isSome_none, Bool.false_eq_true, if_false]
    simp only [ite_self]
  · intro w e n s m1 m2 hw he hn
    unfold getSingleSplitter
    simp only [hw, Option.isSome_some, if_true, Option.getD_some, he, hn,
      Option.isSome_none, Bool.false_eq_true, if_false]
    simp only [ite_self]
  · intro w e n s m1 m2 m3 hw he hn hs
    unfold getSingleSplitter
    simp only [hw, Option.isSome_some, if_true, Option.getD_some, he, hn, hs,
      Option.isSome_none, Bool.false_eq_true, if_false]
    simp only [ite_self]

/-- Witness for `getSingleSplitter_total_norm`: the rune `Z` is not a
west key, so it resolves exactly as `none` does. -/
theorem getSingleSplitter_total_norm_witness :
    (List.lookup 'Z' splitterUTF8).isNone = true ∧
    getSingleSplitter 'Z' horizontalSingle verticalSingle verticalSingle =
      getSingleSplitter noneRune horizontalSingle verticalSingle
        verticalSingle :=
  ⟨by decide, getSingleSplitter_total_norm.1 'Z' horizontalSingle
    verticalSingle verticalSingle
    (Option.isNone_iff_eq_none.mp (by decide))⟩

/-- C7, counterexample.  `getSingleSplitter` does NOT return `none` for
every combination that needs no junction: the thick–thick horizontal
straight run (no vertical neighbours) yields the thick horizontal rune
itself — `splitterUTF8[━][━][none][none] = ━` in the source — and a
vertical single straight run (no horizontal neighbours) likewise yields
`│`, unlike the single and double horizontal runs, which do map to
`none`. -/
theorem getSingleSplitter_straight_run_not_none :
    getSingleSplitter horizontalThick horizontalThick noneRune noneRune =
      horizontalThick ∧
    horizontalThick ≠ noneRune ∧
    getSingleSplitter noneRune noneRune verticalSingle verticalSingle =
      verticalSingle ∧
    verticalSingle ≠ noneRune := by
  refine ⟨by decide, by decide, by decide, by decide⟩


-- ---------------------------------------------------------------------------
-- Specification parser: newStyle / newColumn / getColumns / NewTable
-- ---------------------------------------------------------------------------

/-- The alignment characters of the column grammar (the character class
`[clrCLRp]` of `colSpecRegex`). -/
def isColAlignChar (c : Char) : Bool :=
  c = 'c' || c = 'l' || c = 'r' || c = 'C' || c = 'L' || c = 'R' || c = 'p'

/-- The `^`-anchored leftmost match of `colSpecRegex`
(`^[^clrCLRp]*(c|l|r|C\{\d+\}|L\{\d+\}|R\{\d+\}|p\{\d+\})`): the
greedy separator run ends at the first alignment character, which must
start a valid alignment token.  Returns the matched part and the rest of
the string, or `none` when the regex does not match. -/
def matchOneColSpec (s : List Char) : Option (List Char × List Char) :=
  let sep := s.takeWhile (fun c => !isColAlignChar c)
  match s.drop sep.length with
  | [] => none
  | a :: rest2 =>
    if a = 'c' || a = 'l' || a = 'r' then some (sep ++ [a], rest2)
    else
      -- a is one of C, L, R, p and must carry a `{N}` argument
      match rest2 with
      | '{' :: rest3 =>
        let digits := rest3.takeWhile isDigitChar
        if digits.length = 0 then none
        else
          match rest3.drop digits.length with
          | '}' :: rest4 => some (sep ++ [a, '{'] ++ digits ++ ['}'], rest4)
          | _ => none
      | _ => none

/-- Decimal value of a digit run (Go `strconv.Atoi` on the matched
`\d+`, which cannot fail). -/
def natOfDigits (l : List Char) : Nat :=
  l.foldl (fun n c => n * 10 + (c.toNat - 48)) 0

/-- `newStyle` (style.go) applied to the alignment token extracted by
`columnSpecRegex`: a bare `c`/`l`/`r` yields a style with no argument;
`C{N}`/`L{N}`/`R{N}`/`p{N}` requires a positive numeric argument. -/
def newStyle (token : List Char) : Option Style :=
  match token with
  | [] => none
  | a :: rest =>
    if a = 'c' || a = 'l' || a = 'r' then some { alignment := a }
    else
      let digits := (rest.drop 1).takeWhile isDigitChar
      let arg := natOfDigits digits
      if arg = 0 then none
      else some { alignment := a, arg := arg }

/-- `newColumn` (column.go): split a single-column match into separator
and alignment token, build the style, and default the vertical style to
top. -/
def newColumn (spec : List Char) : Option Column :=
  let sep := spec.takeWhile (fun c => !isColAlignChar c)
  let token := spec.drop sep.length
  match newStyle token with
  | none => none
  | some st =>
    some { sep := sep, hformat := st, vformat := { alignment := 't' } }

/-- `separatorToUTF8` (helpers.go): replace `|||`, `||`, `|` by the
thick, double and single vertical glyphs.  The three sequential
`strings.ReplaceAll` calls consume each run of pipes greedily three,
then two, then one at a time, which this single scan reproduces. -/
def separatorToUTF8 : List Char → List Char
  | '|' :: '|' :: '|' :: rest => '┃' :: separatorToUTF8 rest
  | '|' :: '|' :: rest => '║' :: separatorToUTF8 rest
  | '|' :: rest => '│' :: separatorToUTF8 rest
  | c :: rest => c :: separatorToUTF8 rest
  | [] => []

/-- The loop of `getColumns` (helpers.go), with fuel bounded by the
string length (every match consumes at least one character). -/
def getColumnsAux : Nat → List Char → Option (List Column)
  | _, [] => some []
  | 0, _ :: _ => none
  | fuel + 1, colspec =>
    match matchOneColSpec colspec with
    | none =>
      -- any remainder is a last column with no format
      some [{ sep := colspec, hformat := {}, vformat := {} }]
    | some (matched, rest) =>
      match newColumn matched with
      | none => none
      | some col =>
        match getColumnsAux fuel rest with
        | none => none
        | some cols => some (col :: cols)

/-- `getColumns` (helpers.go). -/
def getColumns (colspec : List Char) : Option (List Column) :=
  getColumnsAux colspec.length colspec

/-- `getVerticalStyles` (helpers.go): one style per `t`/`b`/`c`
character; any other character is an error. -/
def getVerticalStyles : List Char → Option (List Style)
  | [] => some []
  | c :: rest =>
    if c = 't' || c = 'b' || c = 'c' then
      match getVerticalStyles rest with
      | none => none
      | some styles => some ({ alignment := c } :: styles)
    else none

/-- Overwrite the vertical formats of the first columns with the row
specification's styles (the assignment loop in `NewTable`). -/
def applyVertFmt : List Column → List Style → List Column
  | cs, [] => cs
  | [], _ => []
  | c :: cs, v :: vs => { c with vformat := v } :: applyVertFmt cs vs

/-- `NewTable` (table.go) with a column and a row specification (the
one-argument Go form passes an empty row specification).  `none` models
every error return. -/
def NewTable (colspec rowspec : List Char) : Option Table :=
  -- colSpecRegexAll: the specification must start with at least one column
  match matchOneColSpec colspec with
  | none => none
  | some _ =>
    let colspec := separatorToUTF8 colspec
    match getColumns colspec with
    | none => none
    | some columns =>
      let columns := columns.map fun c =>
        { c with sep := separatorToUTF8 c.sep }
      match getVerticalStyles rowspec with
      | none => none
      | some vertFmt =>
        if 0 < vertFmt.length && columns.length < vertFmt.length then none
        else some (Table.mk (applyVertFmt columns vertFmt) [] [])


-- ---------------------------------------------------------------------------
-- C9: row-specification validation in NewTable
-- ---------------------------------------------------------------------------

theorem getVerticalStyles_err (rowspec : List Char)
    (h : ∃ c ∈ rowspec, ¬(c = 't' ∨ c = 'b' ∨ c = 'c')) :
    getVerticalStyles rowspec = none := by
  induction rowspec with
  | nil => simp at h
  | cons c rest ih =>
    obtain ⟨d, hd, hdbad⟩ := h
    simp only [List.mem_cons] at hd
    cases hd with
    | inl heq =>
      subst heq
      have : ¬(d = 't' || d = 'b' || d = 'c') = true := by
        simp only [Bool.or_eq_true, decide_eq_true_eq]
        tauto
      simp only [getVerticalStyles, if_neg this]
    | inr hmem =>
      simp only [getVerticalStyles]
      split
      · rw [ih ⟨d, hmem, hdbad⟩]
      · rfl

theorem getVerticalStyles_length (rowspec : List Char) (vf : List Style)
    (h : getVerticalStyles rowspec = some vf) :
    vf.length = rowspec.length := by
  induction rowspec generalizing vf with
  | nil => simp [getVerticalStyles] at h; simp [← h]
  | cons c rest ih =>
    simp only [getVerticalStyles] at h
    split at h
    · split at h
      · exact absurd h (by simp)
      · rename_i styles hsty
        simp at h
        subst h
        simp [ih styles hsty]
    · exact absurd h (by simp)

theorem head_after_takeWhile (p : Char → Bool) :
    ∀ (l : List Char) c rest,
      l.drop (l.takeWhile p).length = c :: rest → p c = false := by
  intro l
  induction l with
  | nil => intro c rest h; simp at h
  | cons a as ih =>
    intro c rest h
    by_cases hpa : p a = true
    · rw [List.takeWhile_cons_of_pos hpa] at h
      simp only [List.length_cons, List.drop_succ_cons] at h
      exact ih c rest h
    · rw [List.takeWhile_cons_of_neg hpa] at h
      simp only [List.length_nil, List.drop_zero] at h
      cases h
      simpa using hpa

theorem isColAlignChar_ne_zero (a : Char) (h : isColAlignChar a = true) :
    a ≠ Char.ofNat 0 := by
  simp only [isColAlignChar, Bool.or_eq_true, decide_eq_true_eq] at h
  rcases h with ((((((h | h) | h) | h) | h) | h) | h) <;> subst h <;> decide

theorem newStyle_alignment (token : List Char) (st : Style)
    (h : newStyle token = some st) :
    ∃ a rest, token = a :: rest ∧ st.alignment = a := by
  cases token with
  | nil => simp [newStyle] at h
  | cons a rest =>
    refine ⟨a, rest, rfl, ?_⟩
    simp only [newStyle] at h
    split at h
    · simp only [Option.some.injEq] at h
      subst h
      rfl
    · split at h
      · exact absurd h (by simp)
      · simp only [Option.some.injEq] at h
        subst h
        rfl

theorem newColumn_shape (spec : List Char) (col : Column)
    (h : newColumn spec = some col) :
    col.vformat = ⟨'t', 0⟩ ∧ col.hformat.alignment ≠ Char.ofNat 0 := by
  simp only [newColumn] at h
  split at h
  · exact absurd h (by simp)
  · rename_i st hst
    simp only [Option.some.injEq] at h
    subst h
    refine ⟨rfl, ?_⟩
    obtain ⟨a, rest, heq, halg⟩ := newStyle_alignment _ st hst
    have hp : isColAlignChar a = true := by
      have := head_after_takeWhile (fun c => !isColAlignChar c) spec a rest heq
      simpa using this
    show st.alignment ≠ Char.ofNat 0
    rw [halg]
    exact isColAlignChar_ne_zero a hp

/-- Every column parsed by `getColumns` either carries an alignment and
the default top vertical style, or is the trailing no-format column with
the empty (zero) styles. -/
theorem getColumnsAux_shape (fuel : Nat) :
    ∀ (colspec : List Char) (cols : List Column),
      getColumnsAux fuel colspec = some cols →
      ∀ col ∈ cols,
        (col.hformat.alignment ≠ Char.ofNat 0 ∧ col.vformat = ⟨'t', 0⟩) ∨
        (col.hformat.alignment = Char.ofNat 0 ∧ col.vformat = ⟨Char.ofNat 0, 0⟩) := by
  induction fuel with
  | zero =>
    intro colspec cols h col hcol
    cases colspec with
    | nil => simp [getColumnsAux] at h; subst h; simp at hcol
    | cons a as => simp [getColumnsAux] at h
  | succ fuel ih =>
    intro colspec cols h col hcol
    cases colspec with
    | nil =>
      simp [getColumnsAux] at h
      subst h
      simp at hcol
    | cons a as =>
      simp only [getColumnsAux] at h
      split at h
      · -- no match: the whole remainder becomes the trailing column
        simp only [Option.some.injEq] at h
        subst h
        simp only [List.mem_singleton] at hcol
        subst hcol
        right
        exact ⟨rfl, rfl⟩
      · rename_i matched rest hmatch
        split at h
        · exact absurd h (by simp)
        · rename_i c0 hcol0
          split at h
          · exact absurd h (by simp)
          · rename_i cols0 hcols0
            simp only [Option.some.injEq] at h
            subst h
            simp only [List.mem_cons] at hcol
            cases hcol with
            | inl heq =>
              subst heq
              left
              have := newColumn_shape matched col hcol0
              exact ⟨this.2, this.1⟩
            | inr hmem => exact ih rest cols0 hcols0 col hmem

theorem applyVertFmt_length (cs : List Column) (vs : List Style) :
    (applyVertFmt cs vs).length = cs.length := by
  induction cs generalizing vs with
  | nil => cases vs <;> simp [applyVertFmt]
  | cons c cs ih =>
    cases vs with
    | nil => simp [applyVertFmt]
    | cons v vs => simp [applyVertFmt, ih]

theorem applyVertFmt_getElem_ge (cs : List Column) (vs : List Style)
    (j : Nat) (hj : j < cs.length) (hge : vs.length ≤ j)
    (hj2 : j < (applyVertFmt cs vs).length) :
    (applyVertFmt cs vs)[j] = cs[j] := by
  induction cs generalizing vs j with
  | nil => simp at hj
  | cons c cs ih =>
    cases vs with
    | nil => simp [applyVertFmt]
    | cons v vs =>
      cases j with
      | zero => simp at hge
      | succ j =>
        simp only [applyVertFmt, List.getElem_cons_succ]
        exact ih vs j (by simpa using hj) (by simpa using hge)
          (by rw [applyVertFmt_length]; simpa using hj)

/-- C9, claim theorem (amended).  `NewTable` errors when the row
specification contains a character other than `t`, `c`, `b` (part 1) and
when it names more columns than the column specification defines,
counting the possible trailing separator-only column (part 2); on
success, every *data* column (one carrying an alignment code) whose
index is at least the row specification's length keeps the default top
vertical alignment, while the trailing separator-only column keeps the
empty zero style, not top (part 3). -/
theorem NewTable_rowspec_validation (colspec rowspec : List Char) :
    ((∃ c ∈ rowspec, ¬(c = 't' ∨ c = 'b' ∨ c = 'c')) →
      NewTable colspec rowspec = none) ∧
    (∀ cols vf, getColumns (separatorToUTF8 colspec) = some cols →
      getVerticalStyles rowspec = some vf →
      cols.length < vf.length → NewTable colspec rowspec = none) ∧
    (∀ t, NewTable colspec rowspec = some t →
      ∀ j, rowspec.length ≤ j → (hj : j < t.columns.length) →
        (t.columns[j].hformat.alignment ≠ Char.ofNat 0 →
          t.columns[j].vformat = ⟨'t', 0⟩) ∧
        (t.columns[j].hformat.alignment = Char.ofNat 0 →
          t.columns[j].vformat = ⟨Char.ofNat 0, 0⟩)) := by
  refine ⟨?_, ?_, ?_⟩
  · intro hbad
    have herr := getVerticalStyles_err rowspec hbad
    unfold NewTable
    split
    · rfl
    · try dsimp only
      split
      · rfl
      · try dsimp only
        split
        · rfl
        · rename_i vf hvf
          rw [herr] at hvf
          exact absurd hvf (by simp)
  · intro cols vf hcols hvf hlt
    unfold NewTable
    split
    · rfl
    · try dsimp only
      rw [hcols]
      try dsimp only
      rw [hvf]
      try dsimp only
      split
      · rfl
      · rename_i hcond
        exfalso
        apply hcond
        simp only [List.length_map, Bool.and_eq_true, decide_eq_true_eq]
        exact ⟨by omega, hlt⟩
  · intro t ht j hge hj
    unfold NewTable at ht
    split at ht
    · exact absurd ht (by simp)
    · try dsimp only at ht
      split at ht
      · exact absurd ht (by simp)
      · rename_i cols hcols
        try dsimp only at ht
        split at ht
        · exact absurd ht (by simp)
        · rename_i vf hvf
          split at ht
          · exact absurd ht (by simp)
          · simp only [Option.some.injEq] at ht
            subst ht
            simp only [Table.columns] at hj ⊢
            have hvlen : vf.length = rowspec.length :=
              getVerticalStyles_length rowspec vf hvf
            have hmaplen : (cols.map fun c =>
                { c with sep := separatorToUTF8 c.sep }).length = cols.length := by
              simp
            have hjc : j < (cols.map fun c =>
                { c with sep := separatorToUTF8 c.sep }).length := by
              rw [← applyVertFmt_length _ vf]
              exact hj
            rw [applyVertFmt_getElem_ge _ vf j hjc (by omega)
              (by rw [applyVertFmt_length]; exact hjc)]
            have hjcols : j < cols.length := by rw [← hmaplen]; exact hjc
            rw [List.getElem_map]
            have hcolsAux : getColumnsAux (separatorToUTF8 colspec).length
                (separatorToUTF8 colspec) = some cols := hcols
            have hshape := getColumnsAux_shape (separatorToUTF8 colspec).length
              (separatorToUTF8 colspec) cols hcolsAux cols[j]
              (List.getElem_mem hjcols)
            cases hshape with
            | inl hs =>
              constructor
              · intro _; simpa using hs.2
              · intro hzero; exact absurd (by simpa using hzero) hs.1
            | inr hs =>
              constructor
              · intro hne; exact absurd (by simpa using hs.1) hne
              · intro _; simpa using hs.2

/-- Witness for `NewTable_rowspec_validation`: on `NewTable("l l", "t")`
the second data column lies beyond the row specification and keeps top
alignment. -/
theorem NewTable_rowspec_validation_witness :
    NewTable "l l".toList "t".toList = some (Table.mk
      [{ sep := [], width := 0, hformat := ⟨'l', 0⟩, vformat := ⟨'t', 0⟩ },
       { sep := [' '], width := 0, hformat := ⟨'l', 0⟩, vformat := ⟨'t', 0⟩ }]
      [] []) ∧
    ((Table.mk
      [{ sep := [], width := 0, hformat := ⟨'l', 0⟩, vformat := ⟨'t', 0⟩ },
       { sep := [' '], width := 0, hformat := ⟨'l', 0⟩, vformat := ⟨'t', 0⟩ }]
      [] [] : Table).columns.getD 1 {}).vformat = ⟨'t', 0⟩ := by
  refine ⟨by rfl, ?_⟩
  have h := (NewTable_rowspec_validation "l l".toList "t".toList).2.2
    (Table.mk
      [{ sep := [], width := 0, hformat := ⟨'l', 0⟩, vformat := ⟨'t', 0⟩ },
       { sep := [' '], width := 0, hformat := ⟨'l', 0⟩, vformat := ⟨'t', 0⟩ }]
      [] []) (by rfl) 1 (by decide) (by decide)
  exact h.1 (by decide)

/-- C9, counterexample.  `NewTable("l x", "t")` succeeds with two
columns; column index 1 — the trailing separator-only column, beyond the
one-character row specification — does *not* default to top vertical
alignment (its vertical style is the empty zero style).  Moreover a row
specification naming two columns is accepted although the column
specification defines only one data column (the count check uses the
column list including the trailing separator-only column). -/
theorem NewTable_trailing_not_top :
    (NewTable "l x".toList "t".toList).isSome = true ∧
    ((NewTable "l x".toList "t".toList).getD (Table.mk [] [] [])).columns.length = 2 ∧
    "t".toList.length = 1 ∧
    (((NewTable "l x".toList "t".toList).getD
        (Table.mk [] [] [])).columns.getD 1 {}).vformat ≠ ⟨'t', 0⟩ ∧
    (NewTable "l x".toList "tt".toList).isSome = true := by
  refine ⟨by decide, by decide, by decide, by decide, by decide⟩


-- ---------------------------------------------------------------------------
-- Table metrics (table.go) and horizontal rules (table.go `addRule`)
-- ---------------------------------------------------------------------------

/-- `GetNbColumns` (table.go): the number of logical data columns; a
trailing column with no contents (zero alignment) is discarded. -/
def GetNbColumns (t : Table) : Nat :=
  if 0 < t.columns.length ∧
     (t.colAt (t.columns.length - 1)).hformat.alignment = Char.ofNat 0 then
    t.columns.length - 1
  else t.columns.length

/-- `GetNbRows` (table.go). -/
def GetNbRows (t : Table) : Nat := t.cells.length

/-- `getColumnsWidth` (table.go): total physical width (separator runes
plus column width) of the columns in `[jinit, jinit+n)`. -/
def getColumnsWidth (t : Table) (jinit n : Nat) : Nat :=
  ((List.range n).map fun k =>
    countPrintableRuneInString (t.colAt (jinit + k)).sep +
      (t.colAt (jinit + k)).width).sum

/-- The loop of `getRowsHeight` (table.go).  The first row of the range
always contributes its height; every later row contributes 1 when its
row is a horizontal rule (tested on the cell at column 0) and its height
otherwise.  `first` is true before the first row has been counted; the
fuel is the number of remaining rows in the range. -/
def getRowsHeightAux (t : Table) (stop : Nat) : Nat → Bool → Nat → Nat
  | 0, _, _ => 0
  | fuel + 1, first, irow =>
    if irow < stop then
      if first then
        (t.rowAt irow).height + getRowsHeightAux t stop fuel false (irow + 1)
      else
        match t.cellAt irow 0 with
        | .rule _ => 1 + getRowsHeightAux t stop fuel false (irow + 1)
        | _ => (t.rowAt irow).height + getRowsHeightAux t stop fuel false (irow + 1)
    else 0

/-- `getRowsHeight` (table.go): total physical height of the rows in
`[iinit, iinit+n)`; horizontal rules inside the range count one physical
row each, flatly, regardless of the height recorded for their row. -/
def getRowsHeight (t : Table) (iinit n : Nat) : Nat :=
  getRowsHeightAux t (iinit + n) n true iinit

/-- `hasMulticell` (table.go): some multicell in column `jcol` spans
past row `irow`. -/
def hasMulticell (t : Table) (irow jcol : Nat) : Bool :=
  (List.range t.rows.length).any fun i =>
    match t.cellAt i jcol with
    | .mcell m => decide (irow < m.iinit + m.nbrows)
    | _ => false

/-- The inner loop of `addRule` (table.go): overwrite the rule of every
column `j` with `s ≤ j < e` and `j < nbc`. -/
def overwriteRule (rule : GCell) (nbc s e : Nat) (icells : List GCell) :
    List GCell :=
  icells.mapIdx fun j c => if s ≤ j ∧ j < e ∧ j < nbc then rule else c

/-- The pair loop of `addRule` (table.go): `none` models the error
return for a pair whose end column is smaller than its start column.
A single leftover index cannot occur (the caller has already checked
that the list length is even). -/
def addRulePairs (rule : GCell) (nbc : Nat) :
    List Nat → List GCell → Option (List GCell)
  | [], icells => some icells
  | [_], icells => some icells
  | s :: e :: rest, icells =>
    if e < s then none
    else addRulePairs rule nbc rest (overwriteRule rule nbc s e icells)

/-- `addRule` (table.go).  The boolean is the error flag; Go returns
from every error check before touching the receiver, so the table
component equals the input on errors.  Column indices are taken
non-negative: a negative index would make Go panic (an out-of-range
write into `icells`), not return an error. -/
def addRule (t : Table) (rule : Char) (cols : List Nat) : Table × Bool :=
  if cols.length % 2 ≠ 0 then (t, true)
  else
    match addRulePairs (GCell.rule [rule]) (GetNbColumns t)
        (if cols.length = 0 then [0, t.columns.length] else cols)
        (List.replicate (GetNbColumns t) (GCell.rule [horizontalBlank])) with
    | none => (t, true)
    | some icells =>
      (((t.withCells (t.cells ++
          [if 0 < t.columns.length ∧
              (t.colAt (t.columns.length - 1)).hformat.alignment = Char.ofNat 0 then
            icells ++ [GCell.rule []]
          else icells])).withRows
          (t.rows ++ [{ height := 1 }])), false)

/-- `AddSingleRule` (table.go). -/
def AddSingleRule (t : Table) (cols : List Nat) : Table × Bool :=
  addRule t horizontalSingle cols

/-- `AddDoubleRule` (table.go). -/
def AddDoubleRule (t : Table) (cols : List Nat) : Table × Bool :=
  addRule t horizontalDouble cols

/-- `AddThickRule` (table.go). -/
def AddThickRule (t : Table) (cols : List Nat) : Table × Bool :=
  addRule t horizontalThick cols


theorem addRulePairs_none_iff (rule : GCell) (nbc : Nat) :
    ∀ (cols : List Nat) (icells : List GCell),
      (addRulePairs rule nbc cols icells = none ↔
        ∃ k, 2 * k + 1 < cols.length ∧
          cols.getD (2 * k + 1) 0 < cols.getD (2 * k) 0)
  | [], icells => by
    simp only [addRulePairs, List.length_nil]
    constructor
    · intro h; exact absurd h (by simp)
    · rintro ⟨k, hk, _⟩; omega
  | [x], icells => by
    simp only [addRulePairs, List.length_singleton]
    constructor
    · intro h; exact absurd h (by simp)
    · rintro ⟨k, hk, _⟩; omega
  | s :: e :: rest, icells => by
    simp only [addRulePairs]
    by_cases hse : e < s
    · simp only [if_pos hse]
      constructor
      · intro _
        exact ⟨0, by simp only [List.length_cons]; omega, by simpa using hse⟩
      · intro _; trivial
    · simp only [if_neg hse]
      rw [addRulePairs_none_iff rule nbc rest (overwriteRule rule nbc s e icells)]
      constructor
      · rintro ⟨k, hk, hlt⟩
        refine ⟨k + 1, by simp only [List.length_cons]; omega, ?_⟩
        have h1 : 2 * (k + 1) + 1 = (2 * k + 1) + 1 + 1 := by ring
        have h2 : 2 * (k + 1) = (2 * k) + 1 + 1 := by ring
        rw [h1, h2, List.getD_cons_succ, List.getD_cons_succ,
          List.getD_cons_succ, List.getD_cons_succ]
        exact hlt
      · rintro ⟨k, hk, hlt⟩
        cases k with
        | zero => simp at hlt; omega
        | succ k =>
          refine ⟨k, by simp only [List.length_cons] at hk; omega, ?_⟩
          have h1 : 2 * (k + 1) + 1 = (2 * k + 1) + 1 + 1 := by ring
          have h2 : 2 * (k + 1) = (2 * k) + 1 + 1 := by ring
          rw [h1, h2, List.getD_cons_succ, List.getD_cons_succ,
            List.getD_cons_succ, List.getD_cons_succ] at hlt
          exact hlt

theorem addRule_err_unchanged (t : Table) (rule : Char) (cols : List Nat)
    (h : (addRule t rule cols).2 = true) : (addRule t rule cols).1 = t := by
  unfold addRule at h ⊢
  by_cases hodd : cols.length % 2 ≠ 0
  · rw [if_pos hodd]
  · rw [if_neg hodd] at h ⊢
    rcases hP : addRulePairs (GCell.rule [rule]) (GetNbColumns t)
        (if cols.length = 0 then [0, t.columns.length] else cols)
        (List.replicate (GetNbColumns t) (GCell.rule [horizontalBlank]))
      with _ | ic
    · rfl
    · rw [hP] at h
      simp at h

theorem addRule_err_flag (t : Table) (rule : Char) (cols : List Nat) :
    (addRule t rule cols).2 = true ↔
      cols.length % 2 = 1 ∨
        ∃ k, 2 * k + 1 < cols.length ∧
          cols.getD (2 * k + 1) 0 < cols.getD (2 * k) 0 := by
  unfold addRule
  by_cases hodd : cols.length % 2 ≠ 0
  · rw [if_pos hodd]
    constructor
    · intro _; left; omega
    · intro _; rfl
  · rw [if_neg hodd]
    by_cases hnil : cols.length = 0
    · have hcols : cols = [] := List.length_eq_zero.mp hnil
      subst hcols
      simp [addRulePairs, overwriteRule]
    · rw [if_neg hnil]
      rcases hP : addRulePairs (GCell.rule [rule]) (GetNbColumns t) cols
          (List.replicate (GetNbColumns t) (GCell.rule [horizontalBlank]))
        with _ | ic
      · constructor
        · intro _
          right
          exact (addRulePairs_none_iff _ _ cols _).mp hP
        · intro _; rfl
      · constructor
        · intro hfalse; exact absurd hfalse (by simp)
        · rintro (hodd1 | hbad)
          · omega
          · have := (addRulePairs_none_iff (GCell.rule [rule])
                (GetNbColumns t) cols
                (List.replicate (GetNbColumns t)
                  (GCell.rule [horizontalBlank]))).mpr hbad
            rw [hP] at this
            exact absurd this (by simp)

/-- C10, claim theorem.  Whenever `AddSingleRule`, `AddDoubleRule` or
`AddThickRule` reports an error the table is left completely unchanged,
and the error cases are exactly an odd number of column indices or a
pair whose end column is smaller than its start column (column indices
are modelled non-negative; a negative index would make Go panic rather
than return an error). -/
theorem rule_error_leaves_table_unchanged (t : Table) (cols : List Nat) :
    ((AddSingleRule t cols).2 = true → (AddSingleRule t cols).1 = t) ∧
    ((AddDoubleRule t cols).2 = true → (AddDoubleRule t cols).1 = t) ∧
    ((AddThickRule t cols).2 = true → (AddThickRule t cols).1 = t) ∧
    ((AddSingleRule t cols).2 = true ↔
      cols.length % 2 = 1 ∨
        ∃ k, 2 * k + 1 < cols.length ∧
          cols.getD (2 * k + 1) 0 < cols.getD (2 * k) 0) :=
  ⟨addRule_err_unchanged t horizontalSingle cols,
   addRule_err_unchanged t horizontalDouble cols,
   addRule_err_unchanged t horizontalThick cols,
   addRule_err_flag t horizontalSingle cols⟩

/-- Witness for `rule_error_leaves_table_unchanged`: asking for a rule
from column 1 to column 0 on a one-column table errors and leaves the
table unchanged. -/
theorem rule_error_leaves_table_unchanged_witness :
    (AddSingleRule (Table.mk
      [{ sep := [], width := 0, hformat := ⟨'l', 0⟩, vformat := ⟨'t', 0⟩ }]
      [] []) [1, 0]).2 = true ∧
    (AddSingleRule (Table.mk
      [{ sep := [], width := 0, hformat := ⟨'l', 0⟩, vformat := ⟨'t', 0⟩ }]
      [] []) [1, 0]).1 = Table.mk
      [{ sep := [], width := 0, hformat := ⟨'l', 0⟩, vformat := ⟨'t', 0⟩ }]
      [] [] :=
  ⟨by rfl,
   (rule_error_leaves_table_unchanged (Table.mk
      [{ sep := [], width := 0, hformat := ⟨'l', 0⟩, vformat := ⟨'t', 0⟩ }]
      [] []) [1, 0]).1 (by rfl)⟩


-- ---------------------------------------------------------------------------
-- content.Process / content.Format (content.go)
-- ---------------------------------------------------------------------------

/-- The line splitting step of `content.Process` (content.go): paragraph
alignments (`p`, `C`, `L`, `R`) wrap to the column's argument width,
anything else splits on newline characters. -/
def contentLines (t : Table) (jcol : Nat) (c : List Char) : List (List Char) :=
  if (t.colAt jcol).hformat.alignment = 'p' ∨
     (t.colAt jcol).hformat.alignment = 'C' ∨
     (t.colAt jcol).hformat.alignment = 'L' ∨
     (t.colAt jcol).hformat.alignment = 'R' then
    splitParagraph c (t.colAt jcol).hformat.arg
  else c.splitOn (Char.ofNat 10)

/-- The number of physical rows `content.Process` pads to: the recorded
height when the row already exists, 0 otherwise (content.go). -/
def contentNbrows (t : Table) (irow : Nat) : Nat :=
  if irow < t.rows.length then (t.rowAt irow).height else 0

/-- Number of blank lines before the content (content.go): Go sets
`prefix` by two successive non-exclusive `if`s on the lower-cased
vertical alignment (`c` then `b`); the conditions are mutually exclusive
so the nested conditional is the same function. -/
def contentPrefix (al : Char) (d : Nat) : Nat :=
  if al.toLower = 'c' then d / 2 else if al.toLower = 'b' then d else 0

/-- Number of blank lines after the content (content.go); the `c` case
is assigned twice in the source with the same value. -/
def contentSuffix (al : Char) (d : Nat) : Nat :=
  if al.toLower = 't' then d else if al.toLower = 'c' then d / 2 + d % 2 else 0

/-- `content.Process` (content.go).  The first branch serves the
trailing no-content column (Go indexes `t.rows[irow]` there, which
cannot be out of range when rendering; `rowAt` totalises it). -/
def contentProcess (t : Table) (irow jcol : Nat) (c : List Char) : List GCell :=
  if jcol + 1 = t.columns.length ∧
     (t.colAt jcol).hformat.alignment = Char.ofNat 0 then
    List.replicate (max 1 (t.rowAt irow).height) (GCell.content [])
  else if (contentLines t jcol c).length < contentNbrows t irow then
    (List.replicate
        (contentPrefix (t.colAt jcol).vformat.alignment
          (contentNbrows t irow - (contentLines t jcol c).length)) [] ++
      contentLines t jcol c ++
      List.replicate
        (contentSuffix (t.colAt jcol).vformat.alignment
          (contentNbrows t irow - (contentLines t jcol c).length)) []).map
      GCell.content
  else (contentLines t jcol c).map GCell.content

/-- `content.Format` (content.go): separator, then the justification
prefix, the content and the justification suffix. -/
def contentFormat (t : Table) (jcol : Nat) (c : List Char) : List Char :=
  (t.colAt jcol).sep ++
    (justifyLine c (t.colAt jcol).hformat.alignment (t.colAt jcol).width).1 ++
    c ++
    (justifyLine c (t.colAt jcol).hformat.alignment (t.colAt jcol).width).2

/-- C6, claim theorem.  For a content cell whose row height exceeds the
number of physical lines of its (possibly wrapped) content: top vertical
alignment places all blank padding lines after the content, bottom
places all of them before, and centered splits the padding with the
floor half before and the extra blank line (on an odd difference) after
the content. -/
theorem content_vertical_padding (t : Table) (irow jcol : Nat) (c : List Char)
    (hnt : ¬(jcol + 1 = t.columns.length ∧
        (t.colAt jcol).hformat.alignment = Char.ofNat 0))
    (hlt : (contentLines t jcol c).length < contentNbrows t irow) :
    ((t.colAt jcol).vformat.alignment.toLower = 't' →
      contentProcess t irow jcol c =
        (contentLines t jcol c ++
          List.replicate
            (contentNbrows t irow - (contentLines t jcol c).length) []).map
          GCell.content) ∧
    ((t.colAt jcol).vformat.alignment.toLower = 'b' →
      contentProcess t irow jcol c =
        (List.replicate
            (contentNbrows t irow - (contentLines t jcol c).length) [] ++
          contentLines t jcol c).map GCell.content) ∧
    ((t.colAt jcol).vformat.alignment.toLower = 'c' →
      contentProcess t irow jcol c =
        (List.replicate
            ((contentNbrows t irow - (contentLines t jcol c).length) / 2) [] ++
          contentLines t jcol c ++
          List.replicate
            ((contentNbrows t irow - (contentLines t jcol c).length) / 2 +
              (contentNbrows t irow - (contentLines t jcol c).length) % 2) []).map
          GCell.content) := by
  refine ⟨?_, ?_, ?_⟩ <;> intro hal <;>
    · unfold contentProcess
      rw [if_neg hnt, if_pos hlt]
      simp [contentPrefix, contentSuffix, hal]

/-- Witness for `content_vertical_padding`: a centered one-line content
in a height-4 row gets one blank line before and two after. -/
theorem content_vertical_padding_witness :
    contentProcess (Table.mk
      [{ sep := [], width := 0, hformat := ⟨'l', 0⟩, vformat := ⟨'c', 0⟩ }]
      [{ height := 4 }] []) 0 0 ['x'] =
      [GCell.content [], GCell.content ['x'],
       GCell.content [], GCell.content []] := by
  have h := (content_vertical_padding (Table.mk
      [{ sep := [], width := 0, hformat := ⟨'l', 0⟩, vformat := ⟨'c', 0⟩ }]
      [{ height := 4 }] []) 0 0 ['x'] (by decide) (by decide)).2.2 (by decide)
  rw [h]
  rfl


-- ---------------------------------------------------------------------------
-- distributeAllColumns / distributeAllRows (table.go)
-- ---------------------------------------------------------------------------

/-- Overwrite the sub-slice `l[a : a+n]` with `f` applied to it; this is
how Go's in-place mutation of a sub-slice such as
`distributeColumns(k, t.columns[a : a+n])` acts on the whole list. -/
def updateRange {α} (l : List α) (a n : Nat) (f : List α → List α) : List α :=
  l.take a ++ f ((l.drop a).take n) ++ l.drop (a + n)

/-- One iteration of the first loop of `distributeAllColumns`
(table.go): widen the host columns spanned by a multicell that needs
more space. -/
def distColsStep (t : Table) (ji : Nat × Nat) : Table :=
  match t.cellAt ji.2 ji.1 with
  | .mcell m =>
    if getColumnsWidth t m.jinit m.nbcolumns <
       getColumnsWidth m.table 0 m.table.columns.length then
      t.withColumns (updateRange t.columns m.jinit m.nbcolumns
        (distributeColumns
          (getColumnsWidth m.table 0 m.table.columns.length -
            getColumnsWidth t m.jinit m.nbcolumns)))
    else t
  | _ => t

/-- Replace the grid cell at `(i, j)` (a Go assignment through the
shared backing array). -/
def setCellAt (t : Table) (i j : Nat) (v : GCell) : Table :=
  t.withCells (t.cells.set i ((t.cells.getD i []).set j v))

/-- One iteration of the second loop of `distributeAllColumns`
(table.go): widen the columns of a multicell's nested table when the
host columns now provide more space.  Go mutates the nested table
through the slice stored in the grid; the model writes the updated
multicell back into the grid cell. -/
def distColsStep2 (t : Table) (ji : Nat × Nat) : Table :=
  match t.cellAt ji.2 ji.1 with
  | .mcell m =>
    if getColumnsWidth m.table 0 m.table.columns.length <
       getColumnsWidth t m.jinit m.nbcolumns then
      setCellAt t ji.2 ji.1 (.mcell (m.withTable (m.table.withColumns
        (distributeColumns
          (getColumnsWidth t m.jinit m.nbcolumns -
            getColumnsWidth m.table 0 m.table.columns.length)
          m.table.columns))))
    else t
  | _ => t

/-- The `(jcol, irow)` iteration order of the two nested loops of
`distributeAllColumns`/`distributeAllRows` (table.go); the loop bounds
are stable because no step changes the number of columns or rows. -/
def tablePairs (t : Table) : List (Nat × Nat) :=
  (List.range t.columns.length).bind fun j =>
    (List.range t.rows.length).map fun i => (j, i)

/-- `distributeAllColumns` (table.go). -/
def distributeAllColumns (t : Table) : Table :=
  (tablePairs ((tablePairs t).foldl distColsStep t)).foldl distColsStep2
    ((tablePairs t).foldl distColsStep t)

/-- One iteration of the first loop of `distributeAllRows` (table.go). -/
def distRowsStep (t : Table) (ji : Nat × Nat) : Table :=
  match t.cellAt ji.2 ji.1 with
  | .mcell m =>
    if getRowsHeight t m.iinit m.nbrows <
       getRowsHeight m.table 0 m.table.rows.length then
      t.withRows (updateRange t.rows m.iinit m.nbrows
        (distributeRows
          (getRowsHeight m.table 0 m.table.rows.length -
            getRowsHeight t m.iinit m.nbrows)))
    else t
  | _ => t

/-- One iteration of the second loop of `distributeAllRows`
(table.go). -/
def distRowsStep2 (t : Table) (ji : Nat × Nat) : Table :=
  match t.cellAt ji.2 ji.1 with
  | .mcell m =>
    if getRowsHeight m.table 0 m.table.rows.length <
       getRowsHeight t m.iinit m.nbrows then
      setCellAt t ji.2 ji.1 (.mcell (m.withTable (m.table.withRows
        (distributeRows
          (getRowsHeight t m.iinit m.nbrows -
            getRowsHeight m.table 0 m.table.rows.length)
          m.table.rows))))
    else t
  | _ => t

/-- `distributeAllRows` (table.go). -/
def distributeAllRows (t : Table) : Table :=
  (tablePairs ((tablePairs t).foldl distRowsStep t)).foldl distRowsStep2
    ((tablePairs t).foldl distRowsStep t)


theorem distributeColumns_getD_width (n : Nat) (cols : List Column) (j : Nat) :
    (cols.getD j {}).width ≤ ((distributeColumns n cols).getD j {}).width := by
  by_cases hj : j < cols.length
  · have hlen : (distributeColumns n cols).length = cols.length :=
      distributeColumns_length n cols
    rw [List.getD_eq_getElem cols {} hj,
      List.getD_eq_getElem (distributeColumns n cols) ({} : Column)
        (by rw [hlen]; exact hj)]
    unfold distributeColumns
    rw [withWidths_get cols _ (by simp [distributeWidths_length]) j hj
      (by rw [distributeWidths_length]; simpa using hj)
      (by rw [withWidths_length _ _ (by simp [distributeWidths_length])]; exact hj)]
    have hdw := distributeWidths_get n (cols.map Column.width) j (by simpa using hj)
      (by rw [distributeWidths_length]; simpa using hj)
    simp only [List.getElem_map] at hdw
    have hjw : j < (distributeWidths n (cols.map Column.width)).length := by
      rw [distributeWidths_length]; simpa using hj
    show cols[j].width ≤ (distributeWidths n (cols.map Column.width))[j]
    rw [hdw]
    have hle : ∀ x q r : Nat, x ≤ x + q + r := fun x q r => by omega
    apply hle
  · have hlen := distributeColumns_length n cols
    rw [List.getD_eq_default _ _ (by omega), List.getD_eq_default _ _ (by omega)]

theorem distributeRows_getD_height (n : Nat) (rows : List Row) (i : Nat) :
    (rows.getD i {}).height ≤ ((distributeRows n rows).getD i {}).height := by
  by_cases hi : i < rows.length
  · have hlen : (distributeRows n rows).length = rows.length :=
      distributeRows_length n rows
    rw [List.getD_eq_getElem rows {} hi,
      List.getD_eq_getElem (distributeRows n rows) ({} : Row)
        (by rw [hlen]; exact hi)]
    unfold distributeRows
    rw [withHeights_get rows _ (by simp [distributeWidths_length]) i hi
      (by rw [distributeWidths_length]; simpa using hi)
      (by rw [withHeights_length _ _ (by simp [distributeWidths_length])]; exact hi)]
    have hdw := distributeWidths_get n (rows.map Row.height) i (by simpa using hi)
      (by rw [distributeWidths_length]; simpa using hi)
    simp only [List.getElem_map] at hdw
    have hiw : i < (distributeWidths n (rows.map Row.height)).length := by
      rw [distributeWidths_length]; simpa using hi
    show rows[i].height ≤ (distributeWidths n (rows.map Row.height))[i]
    rw [hdw]
    have hle : ∀ x q r : Nat, x ≤ x + q + r := fun x q r => by omega
    apply hle
  · have hlen := distributeRows_length n rows
    rw [List.getD_eq_default _ _ (by omega), List.getD_eq_default _ _ (by omega)]

theorem updateRange_zero {α} (l : List α) (n : Nat) (f : List α → List α) :
    updateRange l 0 n f = f (l.take n) ++ l.drop n := by
  simp [updateRange]

theorem updateRange_cons {α} (c : α) (l : List α) (a n : Nat)
    (f : List α → List α) :
    updateRange (c :: l) (a + 1) n f = c :: updateRange l a n f := by
  have h : a + 1 + n = (a + n) + 1 := by omega
  simp [updateRange, h]

theorem updateRange_nil {α} (a n : Nat) (f : List α → List α)
    (hnil : f [] = []) : updateRange ([] : List α) a n f = [] := by
  cases a <;> simp [updateRange, hnil]

theorem updateRange_length {α} (f : List α → List α)
    (hlen : ∀ xs, (f xs).length = xs.length) :
    ∀ (l : List α) (a n : Nat), (updateRange l a n f).length = l.length
  | l, 0, n => by
    rw [updateRange_zero]
    simp [hlen]
    omega
  | [], a + 1, n => by
    rw [updateRange_nil _ _ _ (List.length_eq_zero.mp (hlen []))]
  | c :: l, a + 1, n => by
    rw [updateRange_cons]
    simp [updateRange_length f hlen l a n]

theorem updateRange_getD_mono {α} (d : α) (meas : α → Nat)
    (f : List α → List α)
    (hlen : ∀ xs, (f xs).length = xs.length)
    (hmono : ∀ xs j, meas (xs.getD j d) ≤ meas ((f xs).getD j d)) :
    ∀ (l : List α) (a n j : Nat),
      meas (l.getD j d) ≤ meas ((updateRange l a n f).getD j d)
  | l, 0, n, j => by
    rw [updateRange_zero]
    by_cases hj : j < (f (l.take n)).length
    · rw [List.getD_append _ _ _ _ hj]
      have hj2 : j < n := by
        have := hlen (l.take n)
        simp at this
        omega
      have := hmono (l.take n) j
      have htake : (l.take n).getD j d = l.getD j d := by
        by_cases hjl : j < l.length
        · rw [List.getD_eq_getElem _ _ (by simp; omega),
            List.getD_eq_getElem _ _ hjl]
          simp [List.getElem_take]
        · rw [List.getD_eq_default _ _ (by simp; omega),
            List.getD_eq_default _ _ (by omega)]
      rw [htake] at this
      exact this
    · rw [List.getD_append_right _ _ _ _ (by omega)]
      have hlen1 : (f (l.take n)).length = min n l.length := by
        rw [hlen]; simp
      by_cases hn : n ≤ l.length
      · have : (l.drop n).getD (j - (f (l.take n)).length) d = l.getD j d := by
          rw [hlen1] at hj ⊢
          have hmin : min n l.length = n := by omega
          rw [hmin] at hj ⊢
          by_cases hjl : j < l.length
          · rw [List.getD_eq_getElem _ _ (by simp; omega),
              List.getD_eq_getElem _ _ hjl]
            rw [List.getElem_drop]
            congr 1
            omega
          · rw [List.getD_eq_default _ _ (by simp; omega),
              List.getD_eq_default _ _ (by omega)]
        rw [this]
      · have hdrop : l.drop n = [] := by
          rw [List.drop_eq_nil_iff]
          omega
        rw [hdrop]
        have hjl : ¬j < l.length := by
          rw [hlen1] at hj
          omega
        rw [List.getD_eq_default _ _ (by omega),
          List.getD_eq_default _ _ (by simp)]
  | [], a + 1, n, j => by
    rw [updateRange_nil _ _ _ (List.length_eq_zero.mp (hlen []))]
  | c :: l, a + 1, n, j => by
    rw [updateRange_cons]
    cases j with
    | zero => simp
    | succ j =>
      simp only [List.getD_cons_succ]
      exact updateRange_getD_mono d meas f hlen hmono l a n j


-- ---------------------------------------------------------------------------
-- C5: distribution never shrinks a width or a height
-- ---------------------------------------------------------------------------

theorem GMcell.withTable_table (m : GMcell) (t : Table) :
    (m.withTable t).table = t := by
  cases m
  rfl

/-- Pointwise comparison of a grid cell before and after a distribution
pass: a multicell may only have grown its nested table's column widths
and row heights (with the nested grid untouched); every other kind of
cell is unchanged. -/
def cellWidened : GCell → GCell → Prop
  | .mcell m, .mcell m2 =>
    m2.table.columns.length = m.table.columns.length ∧
    m2.table.rows.length = m.table.rows.length ∧
    (∀ j, (m.table.colAt j).width ≤ (m2.table.colAt j).width) ∧
    (∀ i, (m.table.rowAt i).height ≤ (m2.table.rowAt i).height) ∧
    m2.table.cells = m.table.cells
  | c, c2 => c2 = c

/-- A table before and after a distribution pass: the shape is
unchanged, no column narrows, no row shortens, and every grid cell is
`cellWidened`. -/
def Widened (t t2 : Table) : Prop :=
  t2.columns.length = t.columns.length ∧
  t2.rows.length = t.rows.length ∧
  (∀ j, (t.colAt j).width ≤ (t2.colAt j).width) ∧
  (∀ i, (t.rowAt i).height ≤ (t2.rowAt i).height) ∧
  (∀ i j, cellWidened (t.cellAt i j) (t2.cellAt i j))

theorem cellWidened_refl (c : GCell) : cellWidened c c := by
  cases c <;> simp [cellWidened]

theorem cellWidened_nonmcell (a b : GCell)
    (ha : ∀ m, a ≠ .mcell m) : cellWidened a b ↔ b = a := by
  cases a with
  | mcell m => exact absurd rfl (ha m)
  | content s => cases b <;> simp [cellWidened]
  | rule s => cases b <;> simp [cellWidened]
  | nilFmt => cases b <;> simp [cellWidened]

theorem cellWidened_mcell (m : GMcell) (b : GCell)
    (h : cellWidened (.mcell m) b) :
    ∃ m2, b = .mcell m2 ∧ cellWidened (GCell.mcell m) (GCell.mcell m2) := by
  cases b with
  | mcell m2 => exact ⟨m2, rfl, h⟩
  | content s => exact absurd h (by simp [cellWidened])
  | rule s => exact absurd h (by simp [cellWidened])
  | nilFmt => exact absurd h (by simp [cellWidened])

theorem cellWidened_trans (a b c : GCell)
    (h1 : cellWidened a b) (h2 : cellWidened b c) : cellWidened a c := by
  by_cases ha : ∀ m, a ≠ GCell.mcell m
  · rw [cellWidened_nonmcell a b ha] at h1
    subst h1
    exact h2
  · push_neg at ha
    obtain ⟨m, rfl⟩ := ha
    obtain ⟨m1, rfl, hm1⟩ := cellWidened_mcell m b h1
    obtain ⟨m2, rfl, hm2⟩ := cellWidened_mcell m1 c h2
    obtain ⟨hc1, hr1, hw1, hh1, he1⟩ := hm1
    obtain ⟨hc2, hr2, hw2, hh2, he2⟩ := hm2
    exact ⟨hc2.trans hc1, hr2.trans hr1,
      fun j => (hw1 j).trans (hw2 j),
      fun i => (hh1 i).trans (hh2 i), he2.trans he1⟩

theorem Widened_refl (t : Table) : Widened t t :=
  ⟨rfl, rfl, fun _ => le_refl _, fun _ => le_refl _,
   fun _ _ => cellWidened_refl _⟩

theorem Widened_trans (a b c : Table) (h1 : Widened a b) (h2 : Widened b c) :
    Widened a c :=
  ⟨h2.1.trans h1.1, h2.2.1.trans h1.2.1,
   fun j => (h1.2.2.1 j).trans (h2.2.2.1 j),
   fun i => (h1.2.2.2.1 i).trans (h2.2.2.2.1 i),
   fun i j => cellWidened_trans _ _ _ (h1.2.2.2.2 i j) (h2.2.2.2.2 i j)⟩

theorem foldl_Widened (step : Table → Nat × Nat → Table)
    (hstep : ∀ t p, Widened t (step t p)) :
    ∀ (ps : List (Nat × Nat)) (t : Table), Widened t (ps.foldl step t)
  | [], t => Widened_refl t
  | p :: ps, t =>
    Widened_trans _ _ _ (hstep t p)
      (foldl_Widened step hstep ps (step t p))

theorem distColsStep_Widened (t : Table) (p : Nat × Nat) :
    Widened t (distColsStep t p) := by
  unfold distColsStep
  split
  · split
    · rename_i m heq _
      refine ⟨?_, rfl, ?_, fun i => le_refl _, fun i j => cellWidened_refl _⟩
      · exact updateRange_length _
          (fun xs => distributeColumns_length _ xs) t.columns _ _
      · intro j
        exact updateRange_getD_mono {} Column.width _
          (fun xs => distributeColumns_length _ xs)
          (fun xs j2 => distributeColumns_getD_width _ xs j2) t.columns _ _ j
    · exact Widened_refl t
  · exact Widened_refl t

theorem distRowsStep_Widened (t : Table) (p : Nat × Nat) :
    Widened t (distRowsStep t p) := by
  unfold distRowsStep
  split
  · split
    · rename_i m heq _
      refine ⟨rfl, ?_, fun j => le_refl _, ?_, fun i j => cellWidened_refl _⟩
      · exact updateRange_length _
          (fun xs => distributeRows_length _ xs) t.rows _ _
      · intro i
        exact updateRange_getD_mono {} Row.height _
          (fun xs => distributeRows_length _ xs)
          (fun xs i2 => distributeRows_getD_height _ xs i2) t.rows _ _ i
    · exact Widened_refl t
  · exact Widened_refl t


theorem getD_set_eq {α} (l : List α) (i : Nat) (a d : α) (h : i < l.length) :
    (l.set i a).getD i d = a := by
  induction l generalizing i with
  | nil => simp at h
  | cons x xs ih =>
    cases i with
    | zero => rfl
    | succ i =>
      simp only [List.set_cons_succ, List.getD_cons_succ]
      exact ih i (by simpa using h)

theorem getD_set_ne {α} (l : List α) (i : Nat) (a d : α) (k : Nat)
    (h : k ≠ i) : (l.set i a).getD k d = l.getD k d := by
  induction l generalizing i k with
  | nil => simp [List.set]
  | cons x xs ih =>
    cases i with
    | zero =>
      cases k with
      | zero => exact absurd rfl h
      | succ k => simp [List.set_cons_zero]
    | succ i =>
      cases k with
      | zero => rfl
      | succ k =>
        simp only [List.set_cons_succ, List.getD_cons_succ]
        exact ih i k (by omega)

theorem set_of_le {α} (l : List α) (i : Nat) (a : α) (h : l.length ≤ i) :
    l.set i a = l := by
  induction l generalizing i with
  | nil => rfl
  | cons x xs ih =>
    cases i with
    | zero => simp at h
    | succ i => simp [List.set_cons_succ, ih i (by simpa using h)]

theorem setCellAt_cellAt (t : Table) (i j : Nat) (v : GCell) (i2 j2 : Nat) :
    (setCellAt t i j v).cellAt i2 j2 =
      if i2 = i ∧ j2 = j ∧ i < t.cells.length ∧
         j < (t.cells.getD i []).length then v
      else t.cellAt i2 j2 := by
  show ((t.cells.set i ((t.cells.getD i []).set j v)).getD i2 []).getD j2
      GCell.nilFmt = _
  by_cases hii : i2 = i
  · subst hii
    by_cases hlen : i2 < t.cells.length
    · rw [getD_set_eq _ _ _ _ hlen]
      by_cases hjj : j2 = j
      · subst hjj
        by_cases hjlen : j2 < (t.cells.getD i2 []).length
        · rw [getD_set_eq _ _ _ _ hjlen, if_pos ⟨rfl, rfl, hlen, hjlen⟩]
        · rw [set_of_le _ _ _ (by omega), if_neg (by tauto)]
          rfl
      · rw [getD_set_ne _ _ _ _ _ hjj, if_neg (by tauto)]
        rfl
    · rw [set_of_le _ _ _ (by omega), if_neg (by tauto)]
      rfl
  · rw [getD_set_ne _ _ _ _ _ hii, if_neg (by tauto)]
    rfl

theorem distColsStep2_Widened (t : Table) (p : Nat × Nat) :
    Widened t (distColsStep2 t p) := by
  unfold distColsStep2
  split
  · split
    · rename_i m heq _
      obtain ⟨Amt, Amj, Amn, Ami, Amr, Acs, Ars, Acl, Arl, Atab, Aout⟩ := m
      refine ⟨rfl, rfl, fun j => le_refl _, fun i => le_refl _, ?_⟩
      intro i2 j2
      rw [setCellAt_cellAt]
      split
      · rename_i hcond
        obtain ⟨h1, h2, _, _⟩ := hcond
        subst h1
        subst h2
        rw [heq]
        refine ⟨?_, rfl, ?_, fun i => le_refl _, rfl⟩
        · exact distributeColumns_length _ _
        · intro jj
          exact distributeColumns_getD_width _ _ jj
      · exact cellWidened_refl _
    · exact Widened_refl t
  · exact Widened_refl t

theorem distRowsStep2_Widened (t : Table) (p : Nat × Nat) :
    Widened t (distRowsStep2 t p) := by
  unfold distRowsStep2
  split
  · split
    · rename_i m heq _
      obtain ⟨Amt, Amj, Amn, Ami, Amr, Acs, Ars, Acl, Arl, Atab, Aout⟩ := m
      refine ⟨rfl, rfl, fun j => le_refl _, fun i => le_refl _, ?_⟩
      intro i2 j2
      rw [setCellAt_cellAt]
      split
      · rename_i hcond
        obtain ⟨h1, h2, _, _⟩ := hcond
        subst h1
        subst h2
        rw [heq]
        refine ⟨rfl, ?_, fun jj => le_refl _, ?_, rfl⟩
        · exact distributeRows_length _ _
        · intro ii
          exact distributeRows_getD_height _ _ ii
      · exact cellWidened_refl _
    · exact Widened_refl t
  · exact Widened_refl t

theorem distributeAllColumns_Widened (t : Table) :
    Widened t (distributeAllColumns t) := by
  unfold distributeAllColumns
  exact Widened_trans _ _ _
    (foldl_Widened distColsStep distColsStep_Widened (tablePairs t) t)
    (foldl_Widened distColsStep2 distColsStep2_Widened _ _)

theorem distributeAllRows_Widened (t : Table) :
    Widened t (distributeAllRows t) := by
  unfold distributeAllRows
  exact Widened_trans _ _ _
    (foldl_Widened distRowsStep distRowsStep_Widened (tablePairs t) t)
    (foldl_Widened distRowsStep2 distRowsStep2_Widened _ _)

/-- C5, claim theorem.  After the width and height distribution passes
run during rendering (`distributeAllColumns` then `distributeAllRows`),
the table keeps its shape, every host column's width and host row's
height is at least its pre-distribution value, and every grid cell is
unchanged except that a multicell's nested table may have grown its own
column widths and row heights (its grid is untouched): a multicell
narrower than its host columns never shrinks them, and distribution
never shrinks anything. -/
theorem distribute_never_shrinks (t : Table) :
    Widened t (distributeAllRows (distributeAllColumns t)) :=
  Widened_trans _ _ _ (distributeAllColumns_Widened t)
    (distributeAllRows_Widened (distributeAllColumns t))


-- ---------------------------------------------------------------------------
-- hrule.Process / hrule.Format (hrule.go)
-- ---------------------------------------------------------------------------

/-- `getPreviousHorizontalMerger` (helpers.go): scan row `i` up to
column `j` for a multicell ending exactly at `j`.  The fuel is `j + 1`:
every iteration advances `idx` by at least one column in reachable
tables (`nbcolumns ≥ 1`). -/
def getPreviousHorizontalMergerAux (t : Table) (i j : Nat) :
    Nat → Nat → Option GMcell
  | 0, _ => none
  | fuel + 1, idx =>
    if idx < j ∧ idx < (t.cells.getD i []).length then
      match t.cellAt i idx with
      | .mcell cell =>
        if cell.jinit + cell.nbcolumns = j then some cell
        else getPreviousHorizontalMergerAux t i j fuel (idx + cell.nbcolumns)
      | _ => getPreviousHorizontalMergerAux t i j fuel (idx + 1)
    else none

def getPreviousHorizontalMerger (t : Table) (i j : Nat) : Option GMcell :=
  getPreviousHorizontalMergerAux t i j (j + 1) 0

/-- Go `utf8.DecodeRuneInString` on an empty string yields RuneError
(U+FFFD); on a non-empty string, its first rune. -/
def goFirstRune (s : List Char) : Char := s.headD (Char.ofNat 0xFFFD)

/-- The rule string stored in a neighbour cell, read by `hrule.Process`
through a `.(hrule)` type assertion.  The assertion can only panic on a
non-rule cell, which does not happen in a rule row (`addRule` fills the
entire row with rules); the model returns the empty rule string there,
as it does for a negative column index (also unreachable: `offset` is
`-1` only while `jcol = 0` branches copy the rune directly). -/
def ruleStrAt (t : Table) (irow : Nat) (jcol : Int) : List Char :=
  if jcol < 0 then []
  else match t.cellAt irow jcol.toNat with
    | .rule s => s
    | _ => []

/-- The rune loop of `hrule.Process` (hrule.go): ANSI escapes are copied
verbatim; a vertical separator switches `offset` from `-1` to `0`; a
rune in the first column before any separator, or in the last column
after one, is copied; any other rune is replaced by the first rune of
the rule stored in the cell at column `jcol + offset`. -/
def hruleProcessAux (t : Table) (irow jcol : Nat) :
    Nat → Int → List Char → List Char
  | _, _, [] => []
  | 0, _, _ :: _ => []
  | fuel + 1, offset, c :: rest =>
    match ansiMatchLen (c :: rest) with
    | some k =>
      (c :: rest).take k ++
        hruleProcessAux t irow jcol fuel offset ((c :: rest).drop k)
    | none =>
      let offset2 := if isVerticalSeparator c then 0 else offset
      (if (offset2 = -1 ∧ jcol = 0) ∨
          (offset2 = 0 ∧ jcol + 1 = t.columns.length) then c
       else goFirstRune (ruleStrAt t irow ((jcol : Int) + offset2))) ::
        hruleProcessAux t irow jcol fuel offset2 rest

/-- `hrule.Process` (hrule.go): one line holding the processed
separator. -/
def hruleProcess (t : Table) (irow jcol : Nat) : List GCell :=
  [GCell.rule (hruleProcessAux t irow jcol (t.colAt jcol).sep.length (-1)
    (t.colAt jcol).sep)]

/-- `hrule.Format` (hrule.go): the processed splitters followed by the
rule stored in the grid repeated `width` times. -/
def hruleFormat (t : Table) (irow jcol : Nat) (h : List Char) : List Char :=
  match t.cellAt irow jcol with
  | .rule r => h ++ (List.replicate (t.colAt jcol).width r).join
  | _ => h

/-- Dispatch of `Format` over the processed cells (content.go, hrule.go,
multicell.go); a multicell line is its output, plus the last column
separator when the multicell reaches the right margin. -/
def cellFormat (t : Table) (irow jcol : Nat) : GCell → List Char
  | .content s => contentFormat t jcol s
  | .rule s => hruleFormat t irow jcol s
  | .mcell m =>
    if m.jinit + m.nbcolumns < t.columns.length then m.output
    else m.output ++ m.clastsep
  | .nilFmt => []

-- ---------------------------------------------------------------------------
-- The output-assembly loop of Table.String (table.go)
-- ---------------------------------------------------------------------------

/-- `output[idx] += s`, or `output = append(output, s)` when `idx` is
past the end (table.go writes through exactly this pair of cases). -/
def appendAt (output : List (List Char)) (idx : Nat) (s : List Char) :
    List (List Char) :=
  if idx < output.length then output.set idx ((output.getD idx []) ++ s)
  else output ++ [s]

/-- The mutable bookkeeping of `Table.String` (table.go):
`nbcolumns[i]` counts columns already printed in row `i`, `nbrows[j]`
rows already printed in column `j`. -/
structure RenderSt where
  nbcolumns : List Nat
  nbrows : List Nat
  output : List (List Char)

/-- The body of the inner (row) loop of `Table.String` (table.go) for
column `j`, row `i`; the accumulator carries the bookkeeping and the
physical line index `idx`. -/
def stringLoopRow (process : Table → Nat → Nat → GCell → List GCell)
    (t : Table) (j : Nat) (acc : RenderSt × Nat) (i : Nat) :
    RenderSt × Nat :=
  let st := acc.1
  let idx := acc.2
  if i < st.nbrows.getD j 0 then acc
  else
    let cell := t.cellAt i j
    let oi :=
      if st.nbcolumns.getD i 0 ≤ j ∧ st.nbrows.getD j 0 ≤ i then
        (process t i j cell).foldl
          (fun (p : List (List Char) × Nat) c =>
            (appendAt p.1 p.2 (cellFormat t i j c), p.2 + 1))
          (st.output, idx)
      else (st.output, idx + (t.rowAt i).height)
    let st2 := { st with output := oi.1 }
    let st3 :=
      match cell with
      | .mcell m =>
        { st2 with
          nbcolumns := st2.nbcolumns.set i (st2.nbcolumns.getD i 0 + m.nbcolumns),
          nbrows := st2.nbrows.set j (st2.nbrows.getD j 0 + m.nbrows) }
      | _ =>
        { st2 with
          nbcolumns :=
            if st2.nbcolumns.getD i 0 ≤ j then
              st2.nbcolumns.set i (st2.nbcolumns.getD i 0 + 1)
            else st2.nbcolumns,
          nbrows :=
            if st2.nbrows.getD j 0 ≤ i then
              st2.nbrows.set j (st2.nbrows.getD j 0 + 1)
            else st2.nbrows }
    (st3, oi.2)

/-- The double loop of `Table.String` (table.go) that assembles the
output lines, given the `Process` dispatcher. -/
def stringLoopWith (process : Table → Nat → Nat → GCell → List GCell)
    (t : Table) : List (List Char) :=
  ((List.range t.columns.length).foldl
    (fun st j =>
      ((List.range t.rows.length).foldl (stringLoopRow process t j)
        (st, 0)).1)
    { nbcolumns := List.replicate t.rows.length 0,
      nbrows := List.replicate t.columns.length 0,
      output := [] }).output


-- ---------------------------------------------------------------------------
-- addSplitters (helpers.go) and the full render
-- ---------------------------------------------------------------------------

/-- `addSplitter` (helpers.go): look up the west/east/north/south runes
around logical position `(i, jl)` (`getRune` errors leave the zero
rune) and overwrite physical byte position `jp` of line `i` when the
junction map yields a splitter. -/
def addSplitter (tab : List (List Char)) (i : Nat) (jp : Int) (jl : Nat) :
    List (List Char) :=
  let row := tab.getD i []
  let west :=
    if 0 < jl then (getRuneGo row (jl - 1)).getD noneRune else noneRune
  let east :=
    if jl + 1 < countPrintableRuneInString row then
      (getRuneGo row (jl + 1)).getD noneRune
    else noneRune
  let north :=
    if 0 < i then (getRuneGo (tab.getD (i - 1) []) jl).getD noneRune
    else noneRune
  let south :=
    if i + 1 < tab.length then (getRuneGo (tab.getD (i + 1) []) jl).getD noneRune
    else noneRune
  let splitter := getSingleSplitter west east north south
  if splitter ≠ noneRune then tab.set i (insertRune row jp splitter)
  else tab

/-- The rune loop of `addSplitters` (helpers.go) for line `i`: walk the
(unchanging) copy of the line, count logical positions `j`, and at each
vertical separator force-resolve the physical position of `j` in the
lines above and below and try to place a splitter there. -/
def addSplittersLineAux (i : Nat) :
    Nat → List (List Char) → List Char → Nat → List (List Char)
  | _, tab, [], _ => tab
  | 0, tab, _ :: _, _ => tab
  | fuel + 1, tab, c :: rest, j =>
    match ansiMatchLen (c :: rest) with
    | some k => addSplittersLineAux i fuel tab ((c :: rest).drop k) j
    | none =>
      if isVerticalSeparator c then
        let tab1 :=
          if 0 < i then
            let r := logicalToPhysical (tab.getD (i - 1) []) j true
            addSplitter (tab.set (i - 1) r.2) (i - 1) r.1 j
          else tab
        let tab2 :=
          if i + 1 < tab1.length then
            let r := logicalToPhysical (tab1.getD (i + 1) []) j true
            addSplitter (tab1.set (i + 1) r.2) (i + 1) r.1 j
          else tab1
        addSplittersLineAux i fuel tab2 rest (j + 1)
      else addSplittersLineAux i fuel tab rest (j + 1)

/-- `addSplitters` (helpers.go).  Each line keeps the copy taken before
its own loop; the loop only modifies the lines above and below. -/
def addSplitters (tab : List (List Char)) : List (List Char) :=
  (List.range tab.length).foldl
    (fun tab2 i =>
      addSplittersLineAux i (tab2.getD i []).length tab2 (tab2.getD i []) 0)
    tab

/-- The width-restoring hack of `multicell.Process` (multicell.go): the
re-created table keeps the widths of the old inner table's columns, and
the first column gives up the width of the inherited separator (a Go
`int` subtraction; it is non-negative whenever the re-created first
column is reachable, and `Nat` truncation stands in for the panic a
negative repeat count would cause later). -/
def restoreWidths (tm mold : Table) (lastsep : List Char) : Table :=
  match tm.columns.mapIdx (fun idx c => { c with width := (mold.colAt idx).width }) with
  | c0 :: rest =>
    tm.withColumns
      ({ c0 with width := c0.width - countPrintableRuneInString lastsep } :: rest)
  | [] => tm.withColumns []

/-- `multicell.Process` (multicell.go), parameterised by the renderer
for the nested table (`inner` is the whole `Table.String` pipeline one
fuel level down).  Go renders `m.table` with `Sprintf` and splits on
newlines, which is the line list itself except that an empty render
gives one empty line.  Go's render also mutates the nested table's
widths/heights through the shared slice backing arrays; that writeback
only matters when the nested table itself holds multicells (none of the
tables in this development do), and the model keeps the processed
multicell's stored table as it was, as Go's value-receiver copy does
for its struct fields. -/
def mcellProcessWith (inner : Table → Table × List (List Char))
    (t : Table) (irow jcol : Nat) (m : GMcell) : List GCell :=
  let m :=
    if (m.table.colAt 0).sep = [] ∧ irow < t.rows.length then
      match getPreviousHorizontalMerger t irow jcol with
      | some mprev =>
        if mprev.clastsep ≠ [] then
          match NewTable (mprev.clastsep ++ m.cspec) [] with
          | some tm => m.withTable (restoreWidths tm m.table mprev.clastsep)
          | none => m
        else m
      | none => m
    else m
  let lines := (inner m.table).2
  let lines := if lines.isEmpty then [[]] else lines
  lines.map fun line =>
    GCell.mcell (GMcell.mk .multicolumn m.jinit m.nbcolumns m.iinit m.nbrows
      [] [] m.clastsep m.rlastsep m.table line)

/-- Dispatch of `Process` over grid cells.  A `nil` grid slot is never
processed by the render loop (the bookkeeping skips it); Go would panic
on the nil interface. -/
def cellProcessWith (inner : Table → Table × List (List Char))
    (t : Table) (irow jcol : Nat) : GCell → List GCell
  | .content s => contentProcess t irow jcol s
  | .rule _ => hruleProcess t irow jcol
  | .mcell m => mcellProcessWith inner t irow jcol m
  | .nilFmt => []

/-- `Table.String` (table.go) up to the final newline join: distribute
columns and rows (mutating the receiver through the shared backing
arrays, returned here as the first component), assemble the lines, add
the splitters.  The fuel bounds the multicell nesting depth. -/
def renderLines : Nat → Table → Table × List (List Char)
  | 0, t => (t, [])
  | fuel + 1, t =>
    (distributeAllRows (distributeAllColumns t),
      addSplitters (stringLoopWith (cellProcessWith (renderLines fuel))
        (distributeAllRows (distributeAllColumns t))))

/-- `Table.String` (table.go): the rendered text and the mutated
receiver. -/
def TableString (fuel : Nat) (t : Table) : Table × List Char :=
  ((renderLines fuel t).1,
    List.intercalate [Char.ofNat 10] (renderLines fuel t).2)


-- ---------------------------------------------------------------------------
-- AddRow (table.go) and the multicell constructors (multicell.go)
-- ---------------------------------------------------------------------------

/-- An argument to `AddRow`: anything that is not a multicell is turned
into a string by `fmt.Sprintf("%v", ...)` (table.go); the model takes
the resulting string. -/
inductive AddCell where
  | content (s : List Char) : AddCell
  | mcell (m : GMcell) : AddCell

def GMcell.withInit (m : GMcell) (j i : Nat) : GMcell :=
  match m with
  | .mk mt _ nc _ nr cs rs cl rl tb o => .mk mt j nc i nr cs rs cl rl tb o

def GMcell.withMtype (m : GMcell) (ty : MType) : GMcell :=
  match m with
  | .mk _ ji nc ii nr cs rs cl rl tb o => .mk ty ji nc ii nr cs rs cl rl tb o

/-- The string of a processed content line (Go casts the formatter back
with `.(content)`; `content.Process` only returns contents). -/
def contentStr : GCell → List Char
  | .content s => s
  | _ => []

/-- `t.columns[j].width = w` (a Go in-place field assignment). -/
def setColWidth (t : Table) (j w : Nat) : Table :=
  t.withColumns (t.columns.set j { t.colAt j with width := w })

/-- Mutate `columns[0]` of a nested table (the multicolumn/multirow
specialisations in `AddRow`; the inner table of a multicell always has
at least one column). -/
def setCol0 (tb : Table) (f : Column → Column) : Table :=
  match tb.columns with
  | c :: rest => tb.withColumns (f c :: rest)
  | [] => tb

/-- The `for t.hasMulticell(len(t.rows), j) { j++ }` skip of `AddRow`
(table.go); the fuel covers every column and one step beyond. -/
def skipMulticellCols (t : Table) (irow : Nat) : Nat → Nat → Nat
  | 0, j => j
  | fuel + 1, j =>
    if hasMulticell t irow j then skipMulticellCols t irow fuel (j + 1)
    else j

/-- The column-width update of `AddRow`'s content case (table.go):
paragraph columns adopt the paragraph argument when wider, other
columns the widest processed line. -/
def addRowContentStep (t : Table) (j : Nat) (str : List Char) : Table :=
  if (t.colAt j).hformat.alignment = 'p' ∨
     (t.colAt j).hformat.alignment = 'C' ∨
     (t.colAt j).hformat.alignment = 'L' ∨
     (t.colAt j).hformat.alignment = 'R' then
    if (t.colAt j).width < (t.colAt j).hformat.arg then
      setColWidth t j (t.colAt j).hformat.arg
    else t
  else
    setColWidth t j ((contentProcess t t.rows.length j str).foldl
      (fun w line => max w (countPrintableRuneInString (contentStr line)))
      (t.colAt j).width)

/-- The multicell adjustments of `AddRow` (table.go): record the start
column and row, and overwrite the nested first column's formats from
the host column (row styles for a multicolumn, separator and horizontal
format for a multirow; the Go mutation reaches the stored multicell
through the shared backing array, so it applies before the store). -/
def addRowMcellAdjust (t : Table) (j : Nat) (m : GMcell) : GMcell :=
  match (m.withInit j t.rows.length).mtype with
  | .multicolumn =>
    (m.withInit j t.rows.length).withTable
      (setCol0 (m.withInit j t.rows.length).table fun c0 =>
        { c0 with vformat := (t.colAt j).vformat })
  | .multirow =>
    (m.withInit j t.rows.length).withTable
      (setCol0 (m.withInit j t.rows.length).table fun c0 =>
        { c0 with sep := (t.colAt j).sep,
                  hformat := (t.colAt j).hformat })
  | .multicell => m.withInit j t.rows.length

/-- The cell loop of `AddRow` (table.go).  `none` models the two error
returns inside the loop (`j` beyond the data columns; a multicell wider
than the remaining columns).  Go returns those errors after having
already widened columns for earlier cells; the model only tracks
successful calls, which is all the claims quantify over.  On success it
returns the table with its updated column widths, the filled cell
slice, the accumulated row height, and the final column index. -/
def AddRowAux (inner : Table → Table × List (List Char)) :
    List AddCell → Table → Nat → Nat → List GCell →
    Option (Table × List GCell × Nat × Nat)
  | [], t, j, height, icells => some (t, icells, height, j)
  | c :: cs, t, j0, height, icells =>
    if GetNbColumns t ≤
        skipMulticellCols t t.rows.length (t.columns.length + 1) j0 then none
    else
      match c with
      | .content str =>
        AddRowAux inner cs
          (addRowContentStep t
            (skipMulticellCols t t.rows.length (t.columns.length + 1) j0) str)
          (skipMulticellCols t t.rows.length (t.columns.length + 1) j0 + 1)
          (max height (contentProcess t t.rows.length
            (skipMulticellCols t t.rows.length (t.columns.length + 1) j0)
            str).length)
          (icells.set
            (skipMulticellCols t t.rows.length (t.columns.length + 1) j0)
            (GCell.content str))
      | .mcell m =>
        if GetNbColumns t <
            skipMulticellCols t t.rows.length (t.columns.length + 1) j0 +
              m.nbcolumns then none
        else
          AddRowAux inner cs t
            (skipMulticellCols t t.rows.length (t.columns.length + 1) j0 +
              m.nbcolumns)
            (max height ((mcellProcessWith inner t t.rows.length
              (skipMulticellCols t t.rows.length (t.columns.length + 1) j0)
              (addRowMcellAdjust t
                (skipMulticellCols t t.rows.length (t.columns.length + 1) j0)
                m)).length / m.nbrows))
            (icells.set
              (skipMulticellCols t t.rows.length (t.columns.length + 1) j0)
              (GCell.mcell (addRowMcellAdjust t
                (skipMulticellCols t t.rows.length (t.columns.length + 1) j0)
                m)))

/-- `AddRow` (table.go): reject more arguments than data columns, run
the cell loop, fill the remaining columns (from the final `j` to the
end, covered slots before `j` keep `nil`) with empty contents, and
append the cell row together with a row of the accumulated height. -/
def AddRowF (fuel : Nat) (t : Table) (cells : List AddCell) : Option Table :=
  if GetNbColumns t < cells.length then none
  else
    match AddRowAux (renderLines fuel) cells t 0 0
        (List.replicate t.columns.length GCell.nilFmt) with
    | none => none
    | some (t2, icells, height, j) =>
      some ((t2.withCells (t2.cells ++
        [icells.mapIdx fun k c => if j ≤ k then GCell.content [] else c])).withRows
        (t2.rows ++ [{ height := height }]))

/-- One anchored match of `rowSpecRegex` (`^[^cbt]*(c|b|t)`). -/
def matchOneRowSpec (s : List Char) : Option (List Char × List Char) :=
  match s.drop ((s.takeWhile fun c => !(c = 'c' || c = 'b' || c = 't')).length) with
  | c :: rest =>
    some ((s.takeWhile fun c => !(c = 'c' || c = 'b' || c = 't')) ++ [c], rest)
  | [] => none

/-- `stripLastSeparator` (helpers.go) with the column regex: keep the
matching prefix, return the non-matching tail (the last separator)
converted to UTF-8 glyphs. -/
def stripLastSeparatorColAux : Nat → List Char → List Char × List Char
  | 0, spec => ([], separatorToUTF8 spec)
  | fuel + 1, spec =>
    match matchOneColSpec spec with
    | none => ([], separatorToUTF8 spec)
    | some (matched, rest) =>
      (matched ++ (stripLastSeparatorColAux fuel rest).1,
        (stripLastSeparatorColAux fuel rest).2)

def stripLastSeparatorCol (spec : List Char) : List Char × List Char :=
  stripLastSeparatorColAux spec.length spec

/-- `stripLastSeparator` (helpers.go) with the row regex. -/
def stripLastSeparatorRowAux : Nat → List Char → List Char × List Char
  | 0, spec => ([], separatorToUTF8 spec)
  | fuel + 1, spec =>
    match matchOneRowSpec spec with
    | none => ([], separatorToUTF8 spec)
    | some (matched, rest) =>
      (matched ++ (stripLastSeparatorRowAux fuel rest).1,
        (stripLastSeparatorRowAux fuel rest).2)

def stripLastSeparatorRow (spec : List Char) : List Char × List Char :=
  stripLastSeparatorRowAux spec.length spec

/-- The argument loop of `NewMulticell` (multicell.go): add the
arguments in chunks of the nested table's column count; a failing
`AddRow` is ignored by Go (its error is discarded), the model keeps the
table unchanged for that chunk. -/
def addArgRows (fuel : Nat) : Nat → Table → List AddCell → Table
  | 0, t, _ => t
  | _, t, [] => t
  | chunkFuel + 1, t, a :: args =>
    addArgRows fuel chunkFuel
      ((AddRowF fuel t ((a :: args).take t.columns.length)).getD t)
      ((a :: args).drop t.columns.length)

/-- `NewMulticell` (multicell.go). -/
def NewMulticell (fuel nbcolumns nbrows : Nat) (cspec rspec : List Char)
    (args : List AddCell) : Option GMcell :=
  match NewTable (stripLastSeparatorCol cspec).1 (stripLastSeparatorRow rspec).1 with
  | none => none
  | some t =>
    some (GMcell.mk .multicell 0 nbcolumns 0 nbrows
      (stripLastSeparatorCol cspec).1 (stripLastSeparatorRow rspec).1
      (stripLastSeparatorCol cspec).2 (stripLastSeparatorRow rspec).2
      (addArgRows fuel args.length t args) [])

/-- `Multicolumn` (multicell.go): a one-row multicell, retyped. -/
def Multicolumn (fuel nbcolumns : Nat) (cspec : List Char)
    (args : List AddCell) : Option GMcell :=
  (NewMulticell fuel nbcolumns 1 cspec ['t'] args).map fun m =>
    m.withMtype .multicolumn

/-- `Multirow` (multicell.go): a one-column multicell, retyped. -/
def Multirow (fuel nbrows : Nat) (rspec : List Char) (arg : AddCell) :
    Option GMcell :=
  (NewMulticell fuel 1 nbrows ['c'] rspec [arg]).map fun m =>
    m.withMtype .multirow


-- ---------------------------------------------------------------------------
-- C2: rendering the same table twice
-- ---------------------------------------------------------------------------

/-- A table whose grid holds no multicell. -/
def hasNoMulticells (t : Table) : Bool :=
  t.cells.all fun row => row.all fun c =>
    match c with
    | GCell.mcell _ => false
    | _ => true

theorem hasNoMulticells_cellAt (t : Table) (h : hasNoMulticells t = true)
    (i j : Nat) (m : GMcell) : t.cellAt i j ≠ .mcell m := by
  intro heq
  unfold Table.cellAt at heq
  by_cases hi : i < t.cells.length
  · rw [List.getD_eq_getElem t.cells [] hi] at heq
    by_cases hj : j < (t.cells[i]).length
    · rw [List.getD_eq_getElem _ GCell.nilFmt hj] at heq
      unfold hasNoMulticells at h
      rw [List.all_eq_true] at h
      have hrow := h t.cells[i] (List.getElem_mem hi)
      rw [List.all_eq_true] at hrow
      have hc := hrow (t.cells[i])[j] (List.getElem_mem hj)
      rw [heq] at hc
      simp at hc
    · rw [show (t.cells[i]).getD j GCell.nilFmt = GCell.nilFmt from
        List.getD_eq_default _ _ (by omega)] at heq
      exact absurd heq (by simp)
  · rw [show t.cells.getD i [] = [] from
      List.getD_eq_default _ _ (by omega)] at heq
    have heq2 : GCell.nilFmt = GCell.mcell m := heq
    exact absurd heq2 (by simp)

theorem distColsStep_id (t : Table) (p : Nat × Nat)
    (h : ∀ i j m, t.cellAt i j ≠ GCell.mcell m) : distColsStep t p = t := by
  unfold distColsStep
  split
  · rename_i m heq
    exact absurd heq (h p.2 p.1 m)
  · rfl

theorem distColsStep2_id (t : Table) (p : Nat × Nat)
    (h : ∀ i j m, t.cellAt i j ≠ GCell.mcell m) : distColsStep2 t p = t := by
  unfold distColsStep2
  split
  · rename_i m heq
    exact absurd heq (h p.2 p.1 m)
  · rfl

theorem distRowsStep_id (t : Table) (p : Nat × Nat)
    (h : ∀ i j m, t.cellAt i j ≠ GCell.mcell m) : distRowsStep t p = t := by
  unfold distRowsStep
  split
  · rename_i m heq
    exact absurd heq (h p.2 p.1 m)
  · rfl

theorem distRowsStep2_id (t : Table) (p : Nat × Nat)
    (h : ∀ i j m, t.cellAt i j ≠ GCell.mcell m) : distRowsStep2 t p = t := by
  unfold distRowsStep2
  split
  · rename_i m heq
    exact absurd heq (h p.2 p.1 m)
  · rfl

theorem foldl_id_of (step : Table → Nat × Nat → Table) (t : Table)
    (hstep : ∀ p, step t p = t) :
    ∀ ps : List (Nat × Nat), ps.foldl step t = t
  | [] => rfl
  | p :: ps => by
    rw [List.foldl_cons, hstep p]
    exact foldl_id_of step t hstep ps

theorem distributeAllColumns_id (t : Table)
    (h : ∀ i j m, t.cellAt i j ≠ GCell.mcell m) :
    distributeAllColumns t = t := by
  unfold distributeAllColumns
  rw [foldl_id_of distColsStep t (fun p => distColsStep_id t p h)]
  rw [foldl_id_of distColsStep2 t (fun p => distColsStep2_id t p h)]

theorem distributeAllRows_id (t : Table)
    (h : ∀ i j m, t.cellAt i j ≠ GCell.mcell m) :
    distributeAllRows t = t := by
  unfold distributeAllRows
  rw [foldl_id_of distRowsStep t (fun p => distRowsStep_id t p h)]
  rw [foldl_id_of distRowsStep2 t (fun p => distRowsStep2_id t p h)]

theorem renderLines_fst_no_mcell (fuel : Nat) (t : Table)
    (h : ∀ i j m, t.cellAt i j ≠ GCell.mcell m) :
    (renderLines fuel t).1 = t := by
  cases fuel with
  | zero => rfl
  | succ fuel =>
    simp only [renderLines]
    rw [distributeAllColumns_id t h, distributeAllRows_id t h]

/-- C2, claim theorem (amended).  For a table whose grid holds no
multicell, rendering leaves the table unchanged (the distribution
passes, the only mutating part of `String`, are the identity without
multicells) and therefore rendering twice in succession produces
identical output at every nesting fuel. -/
theorem render_idempotent_no_multicell (fuel : Nat) (t : Table)
    (h : hasNoMulticells t = true) :
    (TableString fuel t).1 = t ∧
    (TableString fuel (TableString fuel t).1).2 = (TableString fuel t).2 := by
  have h2 : ∀ i j m, t.cellAt i j ≠ GCell.mcell m := fun i j m =>
    hasNoMulticells_cellAt t h i j m
  have hfst : (TableString fuel t).1 = t := by
    show (renderLines fuel t).1 = t
    exact renderLines_fst_no_mcell fuel t h2
  exact ⟨hfst, by rw [hfst]⟩

/-- Witness for `render_idempotent_no_multicell` on a one-column table
with a single content row. -/
theorem render_idempotent_no_multicell_witness :
    hasNoMulticells (Table.mk
      [{ sep := [], width := 1, hformat := ⟨'l', 0⟩, vformat := ⟨'t', 0⟩ }]
      [{ height := 1 }] [[GCell.content ['a']]]) = true ∧
    (TableString 1 (Table.mk
      [{ sep := [], width := 1, hformat := ⟨'l', 0⟩, vformat := ⟨'t', 0⟩ }]
      [{ height := 1 }] [[GCell.content ['a']]])).1 = Table.mk
      [{ sep := [], width := 1, hformat := ⟨'l', 0⟩, vformat := ⟨'t', 0⟩ }]
      [{ height := 1 }] [[GCell.content ['a']]] ∧
    (TableString 1 (TableString 1 (Table.mk
      [{ sep := [], width := 1, hformat := ⟨'l', 0⟩, vformat := ⟨'t', 0⟩ }]
      [{ height := 1 }] [[GCell.content ['a']]])).1).2 =
    (TableString 1 (Table.mk
      [{ sep := [], width := 1, hformat := ⟨'l', 0⟩, vformat := ⟨'t', 0⟩ }]
      [{ height := 1 }] [[GCell.content ['a']]])).2 :=
  ⟨by decide,
   (render_idempotent_no_multicell 1 (Table.mk
      [{ sep := [], width := 1, hformat := ⟨'l', 0⟩, vformat := ⟨'t', 0⟩ }]
      [{ height := 1 }] [[GCell.content ['a']]]) (by decide)).1,
   (render_idempotent_no_multicell 1 (Table.mk
      [{ sep := [], width := 1, hformat := ⟨'l', 0⟩, vformat := ⟨'t', 0⟩ }]
      [{ height := 1 }] [[GCell.content ['a']]]) (by decide)).2⟩

/-- The table of the C2 counterexample: two left columns, a first row
holding a five-line multirow spanning two logical rows next to a plain
cell, a single rule, and a final row. -/
def c2Table : Option Table :=
  (NewTable ("l l".toList) []).bind fun t0 =>
  (Multirow 9 2 ("c".toList) (.content ("a\nb\nc\nd\ne".toList))).bind fun m =>
  (AddRowF 9 t0 [.mcell m, .content ("x".toList)]).bind fun t1 =>
  (match AddSingleRule t1 [] with
   | (t2, false) => some t2
   | (_, true) => none).bind fun t2 =>
  AddRowF 9 t2 [.content ("y".toList)]

/-- C2, counterexample.  Rendering this successfully built table twice
produces different strings: the first render's row-distribution pass
raises the heights of the rows spanned by the multirow — including the
rule row, whose extra height `getRowsHeight` then ignores (rules count
one physical row flatly) — so the second render distributes again and
moves the rule line one row further down.  The first render visibly
mutates the stored row heights from `[2, 1, 1]` to `[3, 2, 1]`. -/
theorem render_twice_differs :
    c2Table.isSome = true ∧
    (TableString 9 (c2Table.getD (Table.mk [] [] []))).2 =
      ("a x\nb  \nc  \nd──\ne  \ny".toList) ∧
    (TableString 9 (TableString 9 (c2Table.getD (Table.mk [] [] []))).1).2 =
      ("a x\nb  \nc  \nd  \ne──\ny  ".toList) ∧
    ("a x\nb  \nc  \nd──\ne  \ny".toList) ≠
      ("a x\nb  \nc  \nd  \ne──\ny  ".toList) ∧
    ((c2Table.getD (Table.mk [] [] [])).rows.map Row.height) = [2, 1, 1] ∧
    ((TableString 9 (c2Table.getD (Table.mk [] [] []))).1.rows.map
      Row.height) = [3, 2, 1] := by
  refine ⟨by decide, by decide, by decide, by decide, by decide, by decide⟩


-- ---------------------------------------------------------------------------
-- C8: every cell row has exactly as many entries as there are columns
-- ---------------------------------------------------------------------------

/-- Tables reachable through the public construction API: `NewTable`
followed by any sequence of successful `AddRow` and rule-adding calls
(`addRule` underlies `AddSingleRule`, `AddDoubleRule` and
`AddThickRule`). -/
inductive Built : Table → Prop where
  | new (colspec rowspec : List Char) (t : Table) :
      NewTable colspec rowspec = some t → Built t
  | row (fuel : Nat) (cells : List AddCell) (t t2 : Table) :
      Built t → AddRowF fuel t cells = some t2 → Built t2
  | rule (rule : Char) (cols : List Nat) (t t2 : Table) :
      Built t → addRule t rule cols = (t2, false) → Built t2

theorem NewTable_cells_nil (colspec rowspec : List Char) (t : Table)
    (h : NewTable colspec rowspec = some t) : t.cells = [] := by
  unfold NewTable at h
  split at h
  · exact absurd h (by simp)
  · try dsimp only at h
    split at h
    · exact absurd h (by simp)
    · try dsimp only at h
      split at h
      · exact absurd h (by simp)
      · split at h
        · exact absurd h (by simp)
        · simp only [Option.some.injEq] at h
          subst h
          rfl

theorem addRulePairs_length (rule : GCell) (nbc : Nat) :
    ∀ (cols : List Nat) (icells ic : List GCell),
      addRulePairs rule nbc cols icells = some ic →
      ic.length = icells.length
  | [], icells, ic => by
    intro h
    simp only [addRulePairs, Option.some.injEq] at h
    rw [← h]
  | [x], icells, ic => by
    intro h
    simp only [addRulePairs, Option.some.injEq] at h
    rw [← h]
  | a :: b :: rest, icells, ic => by
    intro h
    simp only [addRulePairs] at h
    split at h
    · exact absurd h (by simp)
    · have := addRulePairs_length rule nbc rest _ _ h
      rw [this]
      simp [overwriteRule]

theorem addRule_cells (t : Table) (rule : Char) (cols : List Nat)
    (t2 : Table) (h : addRule t rule cols = (t2, false)) :
    t2.columns.length = t.columns.length ∧
    ∃ ic, t2.cells = t.cells ++ [ic] ∧ ic.length = t.columns.length := by
  unfold addRule at h
  split at h
  · exact absurd h (by simp)
  · rcases hP : addRulePairs (GCell.rule [rule]) (GetNbColumns t)
        (if cols.length = 0 then [0, t.columns.length] else cols)
        (List.replicate (GetNbColumns t) (GCell.rule [horizontalBlank]))
      with _ | ic0
    · rw [hP] at h
      exact absurd h (by simp)
    · rw [hP] at h
      have hlen0 : ic0.length = GetNbColumns t := by
        have := addRulePairs_length _ _ _ _ _ hP
        simpa using this
      simp only [Prod.mk.injEq] at h
      obtain ⟨ht2, -⟩ := h
      subst ht2
      refine ⟨rfl, ?_⟩
      by_cases htr : 0 < t.columns.length ∧
          (t.colAt (t.columns.length - 1)).hformat.alignment = Char.ofNat 0
      · refine ⟨ic0 ++ [GCell.rule []], ?_, ?_⟩
        · show t.cells ++ [if 0 < t.columns.length ∧
              (t.colAt (t.columns.length - 1)).hformat.alignment = Char.ofNat 0
            then ic0 ++ [GCell.rule []] else ic0] = t.cells ++ [ic0 ++ [GCell.rule []]]
          rw [if_pos htr]
        · have : GetNbColumns t = t.columns.length - 1 := by
            unfold GetNbColumns
            rw [if_pos htr]
          simp only [List.length_append, hlen0, this, List.length_singleton]
          omega
      · refine ⟨ic0, ?_, ?_⟩
        · show t.cells ++ [if 0 < t.columns.length ∧
              (t.colAt (t.columns.length - 1)).hformat.alignment = Char.ofNat 0
            then ic0 ++ [GCell.rule []] else ic0] = t.cells ++ [ic0]
          rw [if_neg htr]
        · have : GetNbColumns t = t.columns.length := by
            unfold GetNbColumns
            rw [if_neg htr]
          rw [hlen0, this]

theorem addRowContentStep_shape (t : Table) (j : Nat) (str : List Char) :
    (addRowContentStep t j str).columns.length = t.columns.length ∧
    (addRowContentStep t j str).cells = t.cells := by
  unfold addRowContentStep
  split
  · split
    · refine ⟨?_, rfl⟩
      show (t.columns.set j _).length = t.columns.length
      simp
    · exact ⟨rfl, rfl⟩
  · refine ⟨?_, rfl⟩
    show (t.columns.set j _).length = t.columns.length
    simp

theorem AddRowAux_inv (inner : Table → Table × List (List Char)) :
    ∀ (cs : List AddCell) (t : Table) (j height : Nat)
      (icells : List GCell) (t2 : Table) (ic2 : List GCell) (h2 j2 : Nat),
      AddRowAux inner cs t j height icells = some (t2, ic2, h2, j2) →
      t2.columns.length = t.columns.length ∧ t2.cells = t.cells ∧
      ic2.length = icells.length
  | [], t, j, height, icells, t2, ic2, h2, j2 => by
    intro hEq
    simp only [AddRowAux, Option.some.injEq, Prod.mk.injEq] at hEq
    obtain ⟨rfl, rfl, rfl, rfl⟩ := hEq
    exact ⟨rfl, rfl, rfl⟩
  | c :: cs, t, j0, height, icells, t2, ic2, h2, j2 => by
    intro hEq
    cases c with
    | content str =>
      simp only [AddRowAux] at hEq
      by_cases hguard : GetNbColumns t ≤
          skipMulticellCols t t.rows.length (t.columns.length + 1) j0
      · rw [if_pos hguard] at hEq
        exact absurd hEq (by simp)
      · rw [if_neg hguard] at hEq
        have ih := AddRowAux_inv inner cs _ _ _ _ _ _ _ _ hEq
        have hs := addRowContentStep_shape t
          (skipMulticellCols t t.rows.length (t.columns.length + 1) j0) str
        exact ⟨ih.1.trans hs.1, ih.2.1.trans hs.2,
          by rw [ih.2.2, List.length_set]⟩
    | mcell m =>
      simp only [AddRowAux] at hEq
      by_cases hguard : GetNbColumns t ≤
          skipMulticellCols t t.rows.length (t.columns.length + 1) j0
      · rw [if_pos hguard] at hEq
        exact absurd hEq (by simp)
      · rw [if_neg hguard] at hEq
        by_cases hb : GetNbColumns t <
            skipMulticellCols t t.rows.length (t.columns.length + 1) j0 +
              m.nbcolumns
        · rw [if_pos hb] at hEq
          exact absurd hEq (by simp)
        · rw [if_neg hb] at hEq
          have ih := AddRowAux_inv inner cs _ _ _ _ _ _ _ _ hEq
          exact ⟨ih.1, ih.2.1, by rw [ih.2.2, List.length_set]⟩

theorem AddRowF_cells (fuel : Nat) (t : Table) (cells : List AddCell)
    (t2 : Table) (h : AddRowF fuel t cells = some t2) :
    t2.columns.length = t.columns.length ∧
    ∃ ic, t2.cells = t.cells ++ [ic] ∧ ic.length = t.columns.length := by
  unfold AddRowF at h
  by_cases hg : GetNbColumns t < cells.length
  · rw [if_pos hg] at h
    exact absurd h (by simp)
  · rw [if_neg hg] at h
    rcases hA : AddRowAux (renderLines fuel) cells t 0 0
        (List.replicate t.columns.length GCell.nilFmt)
      with _ | ⟨tm, icm, hm, jm⟩
    · rw [hA] at h
      have h2 : (none : Option Table) = some t2 := h
      exact absurd h2 (by simp)
    · rw [hA] at h
      have h3 : some ((tm.withCells (tm.cells ++
          [icm.mapIdx fun k c => if jm ≤ k then GCell.content [] else c])).withRows
          (tm.rows ++ [{ height := hm }])) = some t2 := h
      simp only [Option.some.injEq] at h3
      subst h3
      have inv := AddRowAux_inv (renderLines fuel) cells t 0 0 _ _ _ _ _ hA
      refine ⟨inv.1, ⟨icm.mapIdx fun k c =>
        if jm ≤ k then GCell.content [] else c, ?_, ?_⟩⟩
      · show tm.cells ++ [icm.mapIdx fun k c =>
            if jm ≤ k then GCell.content [] else c] = _
        rw [inv.2.1]
      · have : icm.length = t.columns.length := by
          rw [inv.2.2]
          simp
        simp [this]

/-- C8, claim theorem.  Every table built through the API — `NewTable`
followed by any sequence of successful `AddRow` and rule-adding calls —
has a cell grid in which every row holds exactly as many entries as the
table has columns, including the trailing no-content column created by
trailing separator text in the column specification. -/
theorem built_cells_match_columns (t : Table) (h : Built t) :
    ∀ row ∈ t.cells, row.length = t.columns.length := by
  induction h with
  | new colspec rowspec t hnew =>
    intro row hrow
    rw [NewTable_cells_nil colspec rowspec t hnew] at hrow
    simp at hrow
  | row fuel cells t t2 hb hadd ih =>
    intro r hr
    obtain ⟨hcols, ic, hcells, hiclen⟩ := AddRowF_cells fuel t cells t2 hadd
    rw [hcells] at hr
    rw [hcols]
    rcases List.mem_append.mp hr with h1 | h2
    · exact ih r h1
    · rw [List.mem_singleton] at h2
      subst h2
      exact hiclen
  | rule rule cols t t2 hb hrule ih =>
    intro r hr
    obtain ⟨hcols, ic, hcells, hiclen⟩ := addRule_cells t rule cols t2 hrule
    rw [hcells] at hr
    rw [hcols]
    rcases List.mem_append.mp hr with h1 | h2
    · exact ih r h1
    · rw [List.mem_singleton] at h2
      subst h2
      exact hiclen

/-- Witness for `built_cells_match_columns`: a one-column table with
one added row; its single cell row has length one. -/
theorem built_cells_match_columns_witness :
    [GCell.content ['a']].length =
      (Table.mk
        [{ sep := [], width := 1, hformat := ⟨'l', 0⟩, vformat := ⟨'t', 0⟩ }]
        [{ height := 1 }] [[GCell.content ['a']]] : Table).columns.length :=
  built_cells_match_columns _
    (Built.row 1 [.content ['a']]
      (Table.mk
        [{ sep := [], width := 0, hformat := ⟨'l', 0⟩, vformat := ⟨'t', 0⟩ }]
        [] [])
      _
      (Built.new ("l".toList) [] _ (by rfl)) (by rfl))
    [GCell.content ['a']] (by exact List.mem_singleton.mpr rfl)

end Table
